import Mathlib

/-!
Shallow embedding of the ASMesh metadata-privacy simulator (JavaScript).

Conventions used throughout:
* JS numbers are modelled by `ℚ` (all quantities the claims touch are exact
  dyadic/decimal values and integers far below 2^53, where JS arithmetic is
  exact), and JS integers by `ℕ`/`ℤ`.
* `Math.random()` and the seeded Lehmer generator streams are modelled as a
  list of rationals consumed from the front; the seeded generator is also
  embedded exactly as a `ℕ` state machine where a claim depends on it.
* JS `Map`s are association lists (JS map iteration is in insertion order,
  and `Map.set` updates an existing key in place), JS `Set`s are
  duplicate-free lists in insertion order.
* Loops that JS bounds by data growth are given explicit fuel that is large
  enough to cover the JS execution; theorems about such loops hold for every
  fuel value or are evaluated with the fuel the definition fixes.
-/

namespace MeshSim

/-- A stream of rng outputs (`Math.random()` or a seeded generator). -/
abbrev Rng := List ℚ

/-- Consume one draw from a stream (a JS rng never runs dry; the default `0`
is never reached by any theorem below). -/
def rngNext : Rng → ℚ × Rng
  | [] => (0, [])
  | r :: rs => (r, rs)

/-- Draws of a stream all lie in `[0,1)`, as `Math.random()` and the Lehmer
generator guarantee. -/
def ValidRng (rs : Rng) : Prop := ∀ r ∈ rs, 0 ≤ r ∧ r < 1

/-- One step of the Lehmer generator used by `socialGraph.makeRNG`,
`temporal.makeRNG` and the orchestrator rng: `x ← (x·16807) mod (2^31−1)`. -/
def lehmerNext (x : ℕ) : ℕ := (x * 16807) % 2147483647

/-- One `rng()` call of the seeded generator: update the state and output
`(x' − 1)/(2^31 − 2)`. -/
def rngStep (x : ℕ) : ℕ × ℚ :=
  (lehmerNext x, ((lehmerNext x : ℚ) - 1) / 2147483646)

/-- Relationship tiers of the social graph. -/
inductive Tier
  | intimate
  | friend
  | acquaintance
  deriving DecidableEq, Repr

/-- The social graph as the orchestrator consumes it: a JS `Map` from user id
to neighbor array (`graph.get(u) || []`). -/
abbrev Graph := List (ℕ × List ℕ)

/-- `graph.get(u) || []`. -/
def lookupG (g : Graph) (u : ℕ) : List ℕ :=
  match g.find? (fun e => e.1 == u) with
  | some e => e.2
  | none => []

/-! ## pickWeighted (networkTemporal lines 10-18)

`pickWeighted(items, weights)` draws `r = Math.random() * sum`, walks the
weights subtracting, and returns the first item where the remainder drops to
`≤ 0`, falling back to the last item.  The draw is **unseeded**
(`Math.random()`), which is what claim C1 is about; the draw is made an
explicit argument here. -/

def pickWGo : List (ℕ × ℚ) → ℚ → Option ℕ → Option ℕ
  | [], _, last => last
  | (x, w) :: rest, r, last => if r - w ≤ 0 then some x else pickWGo rest (r - w) last

/-- `pickWeighted` with the `Math.random()` draw `u` explicit.  `items` and
`weights` always have equal length at the call sites (`neighbors` and
`neighbors.map(...)`); an empty `items` yields JS `undefined`, modelled as
`none`. -/
def pickWeighted (items : List ℕ) (weights : List ℚ) (u : ℚ) : Option ℕ :=
  match items with
  | [] => none
  | _ :: _ => pickWGo (items.zip weights) (u * weights.sum) items.getLast?

/-- Standard tier weights of the orchestrator (`opt.tierWeights`). -/
def stdTierWeights : Tier → ℚ
  | .intimate => 3
  | .friend => 3 / 2
  | .acquaintance => 1

/-- Recipient choice for a new send (networkTemporal lines 568-579): the
neighbor weights come from the tier map (`acquaintance` when missing) and the
winner is selected by `pickWeighted`, i.e. by an unseeded `Math.random()`
draw `u`. -/
def newSendRecipient (g : Graph) (tm : ℕ → ℕ → Option Tier) (tw : Tier → ℚ)
    (uId : ℕ) (u : ℚ) : Option ℕ :=
  let neighbors := lookupG g uId
  let weights := neighbors.map (fun nId => tw ((tm uId nId).getD Tier.acquaintance))
  pickWeighted neighbors weights u

/-! ## Sub-epoch distribution (networkTemporal lines 301-314) -/

/-- One simulated day in milliseconds. -/
def dayMs : ℕ := 24 * 60 * 60 * 1000

/-- Bucket assignment of one event inside `distributeEventsToSubEpochs`
(lines 306-308): `⌊(t/dayMs)·totalSubEpochs⌋` plus a jitter of
`⌊(u−0.5)·2⌋`, clamped into `[0, totalSubEpochs−1]`. -/
def assignSubEpoch (t : ℚ) (u : ℚ) (totalSubEpochs : ℕ) : ℤ :=
  let baseSubEpoch : ℤ := ⌊t / (dayMs : ℚ) * (totalSubEpochs : ℚ)⌋
  let jitter : ℤ := ⌊(u - 1 / 2) * 2⌋
  max 0 (min ((totalSubEpochs : ℤ) - 1) (baseSubEpoch + jitter))

/-! ## Temporal event generation (temporal.js lines 58-91)

`generateEventsForHours` runs on the temporal model's own seeded Lehmer
stream; the state `x` is threaded explicitly. -/

/-- The 24-hour campus activity multipliers (temporal.js lines 23-28). -/
def campusActivityPattern : List ℚ :=
  [1/10, 1/10, 1/10, 1/10, 1/10, 1/10, 1/10, 1/5,
   2/5, 4/5, 1, 6/5, 1, 3/5,
   7/5, 13/10, 11/10, 9/10, 7/10, 1/2,
   2/5, 3/10, 1/5, 1/10]

/-- A temporal send event `{userId, t}`. -/
structure TEvent where
  userId : ℕ
  t : ℚ
  deriving DecidableEq, Repr

/-- The `numMessages` inner loop: each message gets `t = hourStart + rng()·hourLengthMs`. -/
def genMsgs (userId : ℕ) (hourStart hourLen : ℚ) : ℕ → ℕ → List TEvent × ℕ
  | 0, x => ([], x)
  | k + 1, x =>
    let s := rngStep x
    let rest := genMsgs userId hourStart hourLen k s.1
    (⟨userId, hourStart + s.2 * hourLen⟩ :: rest.1, rest.2)

/-- Per-user step for one hour (temporal.js lines 71-87): with probability
`min(0.8, (rate/24)·mult)` emit `1+⌊rng()·3⌋` events inside the hour. -/
def genUserHour (userId : ℕ) (rate : ℚ) (hourStart hourLen mult : ℚ) (x : ℕ) :
    List TEvent × ℕ :=
  let adjustedRate := rate / 24 * mult
  let s := rngStep x
  if s.2 < min (4 / 5) adjustedRate then
    let s2 := rngStep s.1
    let numMessages := 1 + (⌊s2.2 * 3⌋).toNat
    genMsgs userId hourStart hourLen numMessages s2.1
  else ([], s.1)

/-- All users for one hour, in id order. -/
def genHourAll : List (ℕ × ℚ) → ℚ → ℚ → ℚ → ℕ → List TEvent × ℕ
  | [], _, _, _, x => ([], x)
  | (uid, rate) :: rest, hourStart, hourLen, mult, x =>
    let r1 := genUserHour uid rate hourStart hourLen mult x
    let r2 := genHourAll rest hourStart hourLen mult r1.2
    (r1.1 ++ r2.1, r2.2)

/-- The hour loop of `generateEventsForHours`: hour `h` starts at
`epochStartMs + h·hourLengthMs` and uses the multiplier of wall-clock hour
`(8+h) % 24`.  (The final sort by timestamp does not change membership and is
omitted; claim C4 only quantifies over the produced events.) -/
def genHours (rates : List (ℕ × ℚ)) (start hourLen : ℚ) : ℕ → ℕ → ℕ → List TEvent × ℕ
  | 0, _, x => ([], x)
  | hoursLeft + 1, hour, x =>
    let hourStart := start + (hour : ℚ) * hourLen
    let mult := campusActivityPattern.getD ((8 + hour) % 24) 0
    let r1 := genHourAll rates hourStart hourLen mult x
    let r2 := genHours rates start hourLen hoursLeft (hour + 1) r1.2
    (r1.1 ++ r2.1, r2.2)

/-- `generateEventsForHours(userRates, hours, {epochStartMs, hourLengthMs})`
from Lehmer state `x`. -/
def generateEventsForHours (rates : List (ℕ × ℚ)) (hours : ℕ) (start hourLen : ℚ)
    (x : ℕ) : List TEvent :=
  (genHours rates start hourLen hours 0 x).1

/-! ## ConversationThread (networkTemporal lines 75-88) -/

def maxConversationLength : ℕ := 5

def conversationDecay : ℚ := 7 / 10

/-- `new ConversationThread(participants)`: `messageCount = 0`,
`lastActive = 0`, `isActive = true`. -/
structure ConversationThread where
  messageCount : ℕ
  lastActive : ℤ
  isActive : Bool
  deriving DecidableEq, Repr

def ConversationThread.new : ConversationThread := ⟨0, 0, true⟩

/-- `shouldContinue(t, rng)` (lines 83-87): the rng draw is consumed only
when the first two checks pass. -/
def shouldContinue (th : ConversationThread) (t : ℤ) (rng : Rng) : Bool × Rng :=
  if maxConversationLength ≤ th.messageCount then (false, rng)
  else if 10 < t - th.lastActive then (false, rng)
  else
    let (r, rng') := rngNext rng
    (decide (r < conversationDecay ^ th.messageCount), rng')

/-- One reply-queue entry hitting thread `th` at epoch `t` (run loop lines
511-549): on a `shouldContinue` accept with a non-null path (`pathOk`) a
reply is emitted and the thread is touched (`messageCount++`,
`lastActive = t`); otherwise nothing happens to the thread. -/
def threadCheck (th : ConversationThread) (t : ℤ) (pathOk : Bool) (rng : Rng) :
    ConversationThread × Bool × Rng :=
  let s := shouldContinue th t rng
  if s.1 && pathOk then
    ({ th with messageCount := th.messageCount + 1, lastActive := t }, true, s.2)
  else (th, false, s.2)

/-- Run a sequence of reply-queue checks `(t, pathOk)` against one thread,
counting emitted replies. -/
def runChecks (th : ConversationThread) (rng : Rng) :
    List (ℤ × Bool) → ConversationThread × ℕ × Rng
  | [] => (th, 0, rng)
  | (t, pathOk) :: rest =>
    let s := threadCheck th t pathOk rng
    let r := runChecks s.1 s.2.2 rest
    (r.1, (if s.2.1 then 1 else 0) + r.2.1, r.2.2)

/-! ## Path selection (networkTemporal lines 91-117 and 136-273) -/

/-- JS `Set.add`: append if absent (insertion order, no duplicates). -/
def setAdd (s : List ℕ) (n : ℕ) : List ℕ := if s.contains n then s else s ++ [n]

/-- The canonical unordered-pair key `[a,b].sort().join('-')` of the tracker
maps: the JS string key identifies exactly the unordered pair, modelled as
`(min, max)`. -/
def pairKey (a b : ℕ) : ℕ × ℕ := (min a b, max a b)

/-- `Map.set(k, (get(k) || 0) + 1)` on an association list. -/
def usageBump {α : Type} [DecidableEq α] : List (α × ℕ) → α → List (α × ℕ)
  | [], k => [(k, 1)]
  | (k', c) :: rest, k =>
    if k' = k then (k, c + 1) :: rest else (k', c) :: usageBump rest k

/-- PathDiversityTracker (lines 91-117). -/
structure PathDiversityTracker where
  nodeUsage : List (ℕ × ℕ)
  edgeUsage : List ((ℕ × ℕ) × ℕ)

def emptyTracker : PathDiversityTracker := ⟨[], []⟩

/-- Consecutive pairs of a list (the edges a path traverses). -/
def consecPairs : List ℕ → List (ℕ × ℕ)
  | a :: b :: rest => (a, b) :: consecPairs (b :: rest)
  | _ => []

def recordPath (tr : PathDiversityTracker) (path : List ℕ) : PathDiversityTracker :=
  let tr1 := path.foldl (fun a n => { a with nodeUsage := usageBump a.nodeUsage n }) tr
  (consecPairs path).foldl
    (fun a e => { a with edgeUsage := usageBump a.edgeUsage (pairKey e.1 e.2) }) tr1

def getNodeScore (tr : PathDiversityTracker) (n : ℕ) : ℚ :=
  1 / (1 + (((tr.nodeUsage.lookup n).getD 0 : ℚ)) * (1/10))

def getEdgeScore (tr : PathDiversityTracker) (a b : ℕ) : ℚ :=
  1 / (1 + (((tr.edgeUsage.lookup (pairKey a b)).getD 0 : ℚ)) * (1/10))

/-- Fuel that covers any BFS run on `g`: every queue push marks a new node
seen, so the number of pops is bounded by the total adjacency size. -/
def graphFuel (g : Graph) : ℕ := 2 + (g.map (fun e => e.2.length)).sum

/-- Neighbor scan of the `shortestPath` BFS (lines 150-156): skip seen
nodes, return on `dst`, otherwise mark seen and enqueue. -/
def spNbrs (dst : ℕ) (path : List ℕ) :
    List ℕ → List (List ℕ) → List ℕ → Option (List ℕ) × List (List ℕ) × List ℕ
  | [], q, seen => (none, q, seen)
  | n :: rest, q, seen =>
    if seen.contains n then spNbrs dst path rest q seen
    else if n = dst then (some (path ++ [n]), q, seen)
    else spNbrs dst path rest (q ++ [path ++ [n]]) (seen ++ [n])

/-- The `shortestPath` BFS loop (lines 143-157): pop, skip paths longer than
`Hmax+1` nodes, scan neighbors. -/
def spLoop (g : Graph) (dst : ℕ) (Hmax : ℕ) :
    ℕ → List (List ℕ) → List ℕ → Option (List ℕ)
  | 0, _, _ => none
  | fuel + 1, [], _ => none
  | fuel + 1, path :: q, seen =>
    if Hmax + 1 < path.length then spLoop g dst Hmax fuel q seen
    else
      let r := spNbrs dst path (lookupG g (path.getLastD 0)) q seen
      match r.1 with
      | some p => some p
      | none => spLoop g dst Hmax fuel r.2.1 r.2.2

/-- `shortestPath(graph, src, dst, Hmax)` (lines 137-159). -/
def shortestPath (g : Graph) (src dst : ℕ) (Hmax : ℕ) : Option (List ℕ) :=
  if src = dst then some [src]
  else spLoop g dst Hmax (graphFuel g) [[src]] [src]

/-- Neighbor scan of the `findDiversePath` BFS (lines 176-188): seen nodes
other than `dst` are skipped, reaching `dst` appends to `pathsFound`
(breaking at 20), others are enqueued. -/
def fdNbrs (dst : ℕ) (path : List ℕ) :
    List ℕ → List (List ℕ) → List ℕ → List (List ℕ) →
    List (List ℕ) × List ℕ × List (List ℕ)
  | [], q, seen, found => (q, seen, found)
  | n :: rest, q, seen, found =>
    if seen.contains n && !(n == dst) then fdNbrs dst path rest q seen found
    else if n = dst then
      let found' := found ++ [path ++ [n]]
      if 20 ≤ found'.length then (q, seen, found')
      else fdNbrs dst path rest q seen found'
    else fdNbrs dst path rest (q ++ [path ++ [n]]) (seen ++ [n]) found

/-- The `findDiversePath` BFS loop (lines 169-189). -/
def fdLoop (g : Graph) (dst : ℕ) (cap : ℕ) :
    ℕ → List (List ℕ) → List ℕ → List (List ℕ) → List (List ℕ)
  | 0, _, _, found => found
  | _ + 1, [], _, found => found
  | fuel + 1, path :: q, seen, found =>
    if 20 ≤ found.length then found
    else if cap + 1 < path.length then fdLoop g dst cap fuel q seen found
    else
      let r := fdNbrs dst path (lookupG g (path.getLastD 0)) q seen found
      fdLoop g dst cap fuel r.1 r.2.1 r.2.2

/-- Diversity score of one candidate path (lines 193-203). -/
def scorePath (tr : PathDiversityTracker) (path : List ℕ) : ℚ :=
  ((path.map (getNodeScore tr)).sum +
    ((consecPairs path).map (fun e => getEdgeScore tr e.1 e.2)).sum) *
    (19/20) ^ path.length

/-- Roulette selection over scored paths (lines 206-210). -/
def rouletteGo : List (List ℕ × ℚ) → ℚ → Option (List ℕ)
  | [], _ => none
  | (p, s) :: rest, r => if r - s ≤ 0 then some p else rouletteGo rest (r - s)

/-- `findDiversePath(graph, src, dst, maxLen, diversityTracker, rng)`
(lines 162-213): BFS up to 20 paths bounded by `maxLen`, roulette by
diversity score, `null` when no path is found. -/
def findDiversePath (g : Graph) (src dst : ℕ) (cap : ℕ) (tr : PathDiversityTracker)
    (rng : Rng) : Option (List ℕ) × Rng :=
  if src = dst then (some [src], rng)
  else
    let pathsFound := fdLoop g dst cap (graphFuel g) [[src]] [src] []
    if pathsFound.isEmpty then (none, rng)
    else
      let scored := pathsFound.map (fun p => (p, scorePath tr p))
      let total := (scored.map (fun x => x.2)).sum
      let u := (rngNext rng).1
      let rng' := (rngNext rng).2
      match rouletteGo scored (u * total) with
      | some p => (some p, rng')
      | none => (some (pathsFound.headD []), rng')

/-- Next-node choice of the random walk (lines 231-233): prefer unvisited
neighbors, index by `⌊rng()·|candidates|⌋` (always in range for rng outputs
in `[0,1)`). -/
def rwPick (neighbors seen : List ℕ) (u : ℚ) : ℕ :=
  let unvisited := neighbors.filter (fun n => !seen.contains n)
  let candidates := if 0 < unvisited.length then unvisited else neighbors
  candidates.getD (⌊u * (candidates.length : ℚ)⌋).toNat 0

/-- Walk state of `randomWalkPath`. -/
structure RWState where
  path : List ℕ
  current : ℕ
  seen : List ℕ
  rng : Rng

/-- The walk loop of `randomWalkPath` (lines 221-240), `iters` counting the
remaining `for` iterations; `some` is an early return.  The 0.3 shortcut
draw happens only when `dst` is a neighbor (JS `&&` short-circuit). -/
def rwGo (g : Graph) (dst : ℕ) : ℕ → RWState → Option (List ℕ) × RWState
  | 0, st => (none, st)
  | iters + 1, st =>
    let neighbors := lookupG g st.current
    if neighbors.isEmpty then (none, st)
    else if neighbors.contains dst && decide ((rngNext st.rng).1 < 3/10) then
      (some (st.path ++ [dst]), { st with rng := (rngNext st.rng).2 })
    else
      let rng0 := if neighbors.contains dst then (rngNext st.rng).2 else st.rng
      let u := (rngNext rng0).1
      let rng1 := (rngNext rng0).2
      let next := rwPick neighbors st.seen u
      let path' := st.path ++ [next]
      let seen' := setAdd st.seen next
      if next = dst then (some path', ⟨path', next, seen', rng1⟩)
      else rwGo g dst iters ⟨path', next, seen', rng1⟩

/-- `randomWalkPath(graph, src, dst, maxLength, rng)` (lines 216-248): walk,
then finish by BFS from the current node, falling back to `[src, dst]`. -/
def randomWalkPath (g : Graph) (src dst : ℕ) (maxLength : ℕ) (rng : Rng) :
    List ℕ × Rng :=
  let r := rwGo g dst (maxLength - 1) ⟨[src], src, [src], rng⟩
  match r.1 with
  | some p => (p, r.2.rng)
  | none =>
    match shortestPath g r.2.current dst (maxLength - r.2.path.length) with
    | some finalPath => (r.2.path ++ finalPath.tail, r.2.rng)
    | none => ([src, dst], r.2.rng)

/-- `selectPath(graph, src, dst, Hmax, diversityTracker, tierMap, rng)`
(lines 251-273): draw `r`, compute the shortest path (`null` propagates),
then pick the strategy: shortest (p < 0.40), near-shortest diverse
(p < 0.75), diverse (p < 0.95), else random walk. -/
def selectPath (g : Graph) (src dst : ℕ) (Hmax : ℕ) (tr : PathDiversityTracker)
    (rng : Rng) : Option (List ℕ) × Rng :=
  let r := (rngNext rng).1
  let rng1 := (rngNext rng).2
  match shortestPath g src dst Hmax with
  | none => (none, rng1)
  | some sp =>
    let shortestLength := sp.length
    let maxLength := (⌊(shortestLength : ℚ) * (3/2)⌋).toNat
    if r < 2/5 then (some sp, rng1)
    else if r < 2/5 + 7/20 then
      let u := (rngNext rng1).1
      let rng2 := (rngNext rng1).2
      let targetLength := shortestLength + 1 + (⌊u * 2⌋).toNat
      let fd := findDiversePath g src dst (min targetLength maxLength) tr rng2
      match fd.1 with
      | some p => (some p, fd.2)
      | none => (some sp, fd.2)
    else if r < 1 - 1/20 then
      let fd := findDiversePath g src dst maxLength tr rng1
      match fd.1 with
      | some p => (some p, fd.2)
      | none => (some sp, fd.2)
    else
      let rw := randomWalkPath g src dst maxLength rng1
      (some rw.1, rw.2)

/-- Every consecutive pair of `path` is an edge of `g` (in traversal
direction; the graphs the simulator builds are symmetric). -/
def chainOk (g : Graph) : List ℕ → Bool
  | [] => true
  | [_] => true
  | a :: b :: rest => (lookupG g a).contains b && chainOk g (b :: rest)

/-- A well-formed partial path: non-empty, starting at `src`, following
edges of `g`. -/
def PathInv (g : Graph) (src : ℕ) (p : List ℕ) : Prop :=
  p ≠ [] ∧ p.head? = some src ∧ chainOk g p = true

/-! ## Reply processing and new sends (networkTemporal run loop, lines
496-637)

The per-entry and per-send processing is embedded with explicit state; the
`futureLinkCounts` accumulation and the `protocol` callbacks are not
inspected by any claim and are omitted. -/

/-- A sentLog record (the fields the claims inspect). -/
structure MsgRecord where
  t : ℕ
  sender : ℕ
  recipient : ℕ
  path : List ℕ
  hopTimes : List ℕ
  dummy : Bool
  isReply : Bool
  deriving DecidableEq, Repr

/-- The hopTimes loop (lines 521-531 and 599-609): one entry `t+i` per hop,
stopping at the horizon `T`. -/
def hopTimesOf (t T : ℕ) (path : List ℕ) : List ℕ :=
  ((List.range (path.length - 1)).map (fun i => t + i)).takeWhile (fun e => e < T)

/-- `REPLY_CONFIG.tierMultipliers`. -/
def tierMultipliers : Tier → ℚ
  | .intimate => 3/2
  | .friend => 1
  | .acquaintance => 3/5

/-- A reply decision `{type, epoch}`; type 0 = instant, 1 = delayed,
2 = eventual. -/
structure ReplyDecision where
  rtype : ℕ
  epoch : ℕ
  deriving DecidableEq, Repr

/-- `scheduleReply(recipient, sender, t, tierMap, rng)` (lines 276-298). -/
def scheduleReply (tm : ℕ → ℕ → Option Tier) (recipientId senderId t : ℕ)
    (rng : Rng) : Option ReplyDecision × Rng :=
  let tier := (tm recipientId senderId).getD Tier.acquaintance
  let tierMult := tierMultipliers tier
  let r := (rngNext rng).1
  let rng1 := (rngNext rng).2
  let adjustedInstant := (1/4 : ℚ) * tierMult
  let adjustedDelayed := (3/5 : ℚ) * tierMult
  let adjustedEventual := (1/10 : ℚ) * tierMult
  let total := adjustedInstant + adjustedDelayed + adjustedEventual + 1/20
  if r < adjustedInstant / total then (some ⟨0, t⟩, rng1)
  else if r < (adjustedInstant + adjustedDelayed) / total then
    (some ⟨1, t + (1 + (⌊(rngNext rng1).1 * 5⌋).toNat)⟩, (rngNext rng1).2)
  else if r < (adjustedInstant + adjustedDelayed + adjustedEventual) / total then
    (some ⟨2, t + (5 + (⌊(rngNext rng1).1 * 15⌋).toNat)⟩, (rngNext rng1).2)
  else (none, rng1)

/-- A reply-queue entry `{subEpoch, to, type}` (`to` is a Lean keyword, so
the field is named `toId`). -/
structure ReplyEntry where
  subEpoch : ℕ
  toId : ℕ
  rtype : ℕ
  deriving DecidableEq, Repr

/-- `Map.set` on an association list: replace in place, else append. -/
def assocSet {κ ν : Type} [DecidableEq κ] : List (κ × ν) → κ → ν → List (κ × ν)
  | [], k, v => [(k, v)]
  | (k', v') :: rest, k, v =>
    if k' = k then (k, v) :: rest else (k', v') :: assocSet rest k v

/-- State threaded through reply processing: active threads, the diversity
tracker, the rng, the produced sentLog records, the adversary `noteSend`
calls, counter-replies queued onto users, and the number of
`shouldContinue` accepts. -/
structure ReplyRunState where
  threads : List ((ℕ × ℕ) × ConversationThread)
  tracker : PathDiversityTracker
  rng : Rng
  log : List MsgRecord
  notes : List (ℕ × ℕ)
  queued : List (ℕ × ReplyEntry)
  accepted : ℕ

/-- Processing of one reply-queue entry of `userId` at epoch `t` (lines
499-561): look up or create the thread; on a `shouldContinue` accept route
via `selectPath` — a `null` path is skipped (`continue`, line 518) —
otherwise log the reply record, notify the adversary, touch the thread and
possibly queue a counter-reply. -/
def processReplyEntry (g : Graph) (tm : ℕ → ℕ → Option Tier) (Hmax T : ℕ)
    (t : ℕ) (userId : ℕ) (entry : ReplyEntry) (st : ReplyRunState) :
    ReplyRunState :=
  let recipientId := entry.toId
  let key := pairKey userId recipientId
  let thread := (st.threads.lookup key).getD ConversationThread.new
  let threads1 := if (st.threads.lookup key).isSome then st.threads
    else st.threads ++ [(key, ConversationThread.new)]
  let scr := shouldContinue thread (t : ℤ) st.rng
  if scr.1 then
    let sel := selectPath g userId recipientId Hmax st.tracker scr.2
    match sel.1 with
    | none =>
      { st with threads := threads1, rng := sel.2, accepted := st.accepted + 1 }
    | some p =>
      let tracker1 := recordPath st.tracker p
      let msg : MsgRecord :=
        ⟨t, userId, recipientId, p, hopTimesOf t T p, false, true⟩
      let thread2 : ConversationThread :=
        { thread with messageCount := thread.messageCount + 1, lastActive := (t : ℤ) }
      let threads2 := assocSet threads1 key thread2
      let cr := scheduleReply tm recipientId userId t sel.2
      match cr.1 with
      | some d =>
        let replySubEpoch := d.epoch * 6 + (⌊(rngNext cr.2).1 * 6⌋).toNat
        { threads := threads2, tracker := tracker1, rng := (rngNext cr.2).2,
          log := st.log ++ [msg], notes := st.notes ++ [(t, userId)],
          queued := st.queued ++ [(recipientId, ⟨replySubEpoch, userId, d.rtype⟩)],
          accepted := st.accepted + 1 }
      | none =>
        { threads := threads2, tracker := tracker1, rng := cr.2,
          log := st.log ++ [msg], notes := st.notes ++ [(t, userId)],
          queued := st.queued, accepted := st.accepted + 1 }
  else
    { st with threads := threads1, rng := scr.2 }

/-- Process a sequence of reply-queue entries `(t, userId, entry)` in order. -/
def runReplies (g : Graph) (tm : ℕ → ℕ → Option Tier) (Hmax T : ℕ) :
    List (ℕ × ℕ × ReplyEntry) → ReplyRunState → ReplyRunState
  | [], st => st
  | (t, uid, e) :: rest, st =>
    runReplies g tm Hmax T rest (processReplyEntry g tm Hmax T t uid e st)

/-- Number of sentLog records with `isReply = true`. -/
def countReplies (log : List MsgRecord) : ℕ :=
  (log.filter (fun m => m.isReply)).length

/-- One new-send step (lines 568-637) for user `uId` at epoch `t`, with the
`Math.random()` recipient draw `mathDraw` explicit.  Returns `none` exactly
when the **unguarded** `recordPath(path)` of line 597 would throw, i.e. when
`selectPath` returned `null` — unlike the reply branch, this branch has no
null check. -/
def newSendStep (g : Graph) (tm : ℕ → ℕ → Option Tier) (tw : Tier → ℚ)
    (Hmax T t : ℕ) (uId : ℕ) (mathDraw : ℚ) (tr : PathDiversityTracker)
    (rng : Rng) :
    Option (List MsgRecord × List (ℕ × ℕ) × List (ℕ × ReplyEntry) ×
      PathDiversityTracker × Rng) :=
  let neighbors := lookupG g uId
  if neighbors.isEmpty then some ([], [], [], tr, rng)
  else
    let weights := neighbors.map (fun nId => tw ((tm uId nId).getD Tier.acquaintance))
    match pickWeighted neighbors weights mathDraw with
    | none => some ([], [], [], tr, rng)
    | some recipientId =>
      let sel := selectPath g uId recipientId Hmax tr rng
      match sel.1 with
      | none => none
      | some p =>
        let tr1 := recordPath tr p
        let msg : MsgRecord :=
          ⟨t, uId, recipientId, p, hopTimesOf t T p, false, false⟩
        let cr := scheduleReply tm recipientId uId t sel.2
        match cr.1 with
        | some d =>
          let replySubEpoch := d.epoch * 6 + (⌊(rngNext cr.2).1 * 6⌋).toNat
          some ([msg], [(t, uId)],
            [(recipientId, ⟨replySubEpoch, uId, d.rtype⟩)], tr1, (rngNext cr.2).2)
        | none => some ([msg], [(t, uId)], [], tr1, cr.2)

/-! ## AdversaryLP: link counts and totalVolume (AdversaryLP.js)

`_edgeKey`/`_timeKey` build string keys; they are modelled character by
character as lists of naturals (digits `0`-`9` stand for themselves, `45` is
the character `'-'`), so that the string-prefix test `tk.startsWith(key)` in
`_analyzeRelationship` keeps its exact JS semantics. -/

/-- Decimal digits of `n`, most significant first (the characters of the JS
template `${n}`); fuel-structural, `n+1` fuel always suffices. -/
def digitsAux : ℕ → ℕ → List ℕ
  | 0, _ => []
  | fuel + 1, n => if n < 10 then [n] else digitsAux fuel (n / 10) ++ [n % 10]

def decimalOf (n : ℕ) : List ℕ := digitsAux (n + 1) n

/-- The character `'-'`. -/
def dashChar : ℕ := 45

/-- `_edgeKey(a,b)` (line 31): `a < b ? "a-b" : "b-a"`. -/
def edgeKey (a b : ℕ) : List ℕ :=
  if a < b then decimalOf a ++ [dashChar] ++ decimalOf b
  else decimalOf b ++ [dashChar] ++ decimalOf a

/-- `_timeKey(a,b,t)` (line 35): `"edgeKey(a,b)-t"`. -/
def timeKey (a b t : ℕ) : List ℕ := edgeKey a b ++ [dashChar] ++ decimalOf t

/-- `Map.set(k, get(k) + c)`: update in place, else append (JS `Map`
insertion-order semantics). -/
def mapBump : List (List ℕ × ℕ) → List ℕ → ℕ → List (List ℕ × ℕ)
  | [], k, c => [(k, c)]
  | (k', c') :: rest, k, c =>
    if k' = k then (k, c' + c) :: rest else (k', c') :: mapBump rest k c

/-- An observed contact `noteContact(t, a, b, count)` feeds `linkCounts`
unless both endpoints are unobserved (lines 40-44). -/
structure Contact where
  t : ℕ
  a : ℕ
  b : ℕ
  count : ℕ
  deriving DecidableEq, Repr

def noteContact (observed : List ℕ) (lc : List (List ℕ × ℕ)) (c : Contact) :
    List (List ℕ × ℕ) :=
  if !observed.contains c.a && !observed.contains c.b then lc
  else mapBump lc (timeKey c.a c.b c.t) c.count

def buildLinkCounts (observed : List ℕ) (cs : List Contact) : List (List ℕ × ℕ) :=
  cs.foldl (noteContact observed) []

/-- `totalVolume` of `_analyzeRelationship` (lines 96-104): sum the counts of
every `linkCounts` entry whose key **starts with** `edgeKey a b`
(`tk.startsWith(key)`). -/
def totalVolume (lc : List (List ℕ × ℕ)) (a b : ℕ) : ℕ :=
  ((lc.filter (fun e => (edgeKey a b).isPrefixOf e.1)).map (fun e => e.2)).sum

/-- The volume the spec sentence describes: contributions of the recorded
contact counts of exactly the pair `{a,b}`, over all epochs. -/
def exactPairVolume (observed : List ℕ) (cs : List Contact) (a b : ℕ) : ℕ :=
  ((cs.filter (fun c =>
      (observed.contains c.a || observed.contains c.b) &&
      ((c.a == a && c.b == b) || (c.a == b && c.b == a)))).map (fun c => c.count)).sum

/-! ## AdversaryLP: candidate set of inferEpoch (lines 298-346) -/

/-- Candidate recipient set for sender `s` (lines 306-309): when the
estimated neighbor set exists **and is non-empty** it is intersected with
`adj(s)`; only a missing/empty estimated set falls back to `adj(s)`. -/
def candidateSet (estimatedNbrs : Option (List ℕ)) (nbrs : List ℕ) : List ℕ :=
  match estimatedNbrs with
  | some e => if 0 < e.length then e.filter (fun n => nbrs.contains n) else nbrs
  | none => nbrs

/-- Whether `inferEpoch` records a guess for a sender with true neighbor list
`nbrs` (lines 303, 311, 333-339): it skips when `adj(s)` is empty or when the
candidate set comes out empty, and otherwise always pushes a guess. -/
def guessProduced (estimatedNbrs : Option (List ℕ)) (nbrs : List ℕ) : Bool :=
  !nbrs.isEmpty && !(candidateSet estimatedNbrs nbrs).isEmpty

/-- The candidate set as the spec sentence defines it:
`C = (estimatedNeighbors(s) ∩ adj(s))` if that intersection is non-empty,
else `adj(s)`. -/
def candidateSetSpec (estimatedNbrs : Option (List ℕ)) (nbrs : List ℕ) : List ℕ :=
  let inter := (estimatedNbrs.getD []).filter (fun n => nbrs.contains n)
  if 0 < inter.length then inter else nbrs

/-! ## Social graph builder (socialGraph.js lines 14-193)

The users the orchestrator passes in are `{id: i, ...}` for `i < n` with no
spatial coordinates (`networkTemporal._mkUsers`), so the pseudo-distance
branch applies and ids equal indices.  `Math.pow(u, 1/w)` in the
Efraimidis-Spirakis keys is transcendental and is passed in as an
uninterpreted parameter `powF`; every theorem below holds for all `powF`.
JS `Array.sort` is stable (ES2019); it is modelled by a stable insertion
sort, which produces the same list for a consistent comparator.  The float
literals `1e-9` and `1e-12` are modelled as the exact rationals; only their
positivity matters anywhere. -/

/-- Stable insertion sort; `le y x` means `y` may stay in front of `x`
(JS comparator `cmp(y,x) ≤ 0`). -/
def insertStable {α : Type} (le : α → α → Bool) (x : α) : List α → List α
  | [] => [x]
  | y :: ys => if le y x then y :: insertStable le x ys else x :: y :: ys

def sortStable {α : Type} (le : α → α → Bool) (l : List α) : List α :=
  l.foldl (fun acc x => insertStable le x acc) []

/-- `makeRNG(seed)` normalization (socialGraph lines 4-11). -/
def makeRNGInit (seed : ℕ) : ℕ :=
  if seed % 2147483647 = 0 then 2147483646 else seed % 2147483647

/-- Deterministic pseudo-distance (lines 71-75):
`(((i·2654435761 + j·2246822519) >>> 0) / 0xffffffff)² · n`. -/
def pdist (n i j : ℕ) : ℚ :=
  (((((i * 2654435761 + j * 2246822519) % 4294967296 : ℕ) : ℚ) / 4294967295) ^ 2)
    * (n : ℚ)

/-- `tierOrder` of `stronger` (lines 30-33). -/
def tierOrder : Tier → ℕ
  | .intimate => 3
  | .friend => 2
  | .acquaintance => 1

/-- `stronger(t1, t2)`: `order[t1] >= order[t2] ? t1 : t2`. -/
def stronger (t1 t2 : Tier) : Tier :=
  if tierOrder t2 ≤ tierOrder t1 then t1 else t2

/-- Builder state: adjacency sets and tier maps, indexed by user id. -/
structure GB where
  adj : List (List ℕ)
  tier : List (List (ℕ × Tier))

def GB.init (n : ℕ) : GB := ⟨List.replicate n [], List.replicate n []⟩

/-- `adj.get(u)` (a JS `Set`, insertion-ordered and duplicate-free). -/
def adjAt (g : GB) (u : ℕ) : List ℕ := g.adj.getD u []

/-- `tierMap.get(u).get(v)`. -/
def tierAt (g : GB) (u v : ℕ) : Option Tier := (g.tier.getD u []).lookup v

/-- `adj.get(u).add(v)`. -/
def addAdj (g : GB) (u v : ℕ) : GB :=
  if (adjAt g u).contains v then g
  else { g with adj := g.adj.set u (adjAt g u ++ [v]) }

/-- `tierMap.get(u).set(v, t)`. -/
def setTier (g : GB) (u v : ℕ) (tr : Tier) : GB :=
  { g with tier := g.tier.set u (assocSet (g.tier.getD u []) v tr) }

/-- The options record of `getTieredMeshGraph`. -/
structure GraphOptions where
  pIntimate : ℚ
  pFriend : ℚ
  pAcquaintance : ℚ
  pBridge : ℚ
  seed : ℕ
  bandMultiplier : ℚ
  bridgeSample : ℕ

/-- `kInt = max(1, ⌊pIntimate·(n−1)⌋)` (line 52). -/
def kIntOf (n : ℕ) (o : GraphOptions) : ℕ :=
  max 1 (⌊o.pIntimate * ((n - 1 : ℕ) : ℚ)⌋).toNat

/-- `kFri = max(kInt+2, ⌊pFriend·(n−1)⌋)` (line 53). -/
def kFriOf (n : ℕ) (o : GraphOptions) : ℕ :=
  max (kIntOf n o + 2) (⌊o.pFriend * ((n - 1 : ℕ) : ℚ)⌋).toNat

/-- `kAcq = max(kFri+3, ⌊pAcquaintance·(n−1)⌋)` (line 54). -/
def kAcqOf (n : ℕ) (o : GraphOptions) : ℕ :=
  max (kFriOf n o + 3) (⌊o.pAcquaintance * ((n - 1 : ℕ) : ℚ)⌋).toNat

/-- Candidates of user `i`, sorted by distance ascending, stable
(lines 96-102). -/
def candidatesFor (n i : ℕ) : List (ℕ × ℚ) :=
  sortStable (fun a b => decide (a.2 ≤ b.2))
    (((List.range n).filter (fun j => !(j == i))).map (fun j => (j, pdist n i j)))

/-- The candidate band (lines 110-116): scan candidates in distance order,
keep the unpicked with weight `1/(dist + 1e-9)`, stop once `m` are
collected (the JS `break` fires after the push). -/
def bandGo (picked : List ℕ) (m : ℕ) : List (ℕ × ℚ) → List (ℕ × ℚ) → List (ℕ × ℚ)
  | [], band => band
  | c :: rest, band =>
    if picked.contains c.1 then bandGo picked m rest band
    else
      let band' := band ++ [(c.1, 1 / (c.2 + 1 / 1000000000))]
      if m ≤ band'.length then band' else bandGo picked m rest band'

/-- Efraimidis-Spirakis keys (lines 18-22): one rng draw per candidate in
order; zero/negative weights are clamped to `1e-12`. -/
def wsKeys (powF : ℚ → ℚ → ℚ) : List (ℕ × ℚ) → ℕ → List ((ℕ × ℚ) × ℚ) × ℕ
  | [], x => ([], x)
  | c :: rest, x =>
    let s := rngStep x
    let w := if 0 < c.2 then c.2 else 1 / 1000000000000
    let r := wsKeys powF rest s.1
    ((c, powF s.2 (1 / w)) :: r.1, r.2)

/-- `weightedSample(candidates, k, rng)` (lines 14-27): keys, stable sort by
key descending (`(a,b) => b.key - a.key`), take `k`. -/
def weightedSample (powF : ℚ → ℚ → ℚ) (candidates : List (ℕ × ℚ)) (k : ℕ)
    (x : ℕ) : List (ℕ × ℚ) × ℕ :=
  if k = 0 ∨ candidates = [] then ([], x)
  else
    let r := wsKeys powF candidates x
    let sorted := sortStable (fun a b => decide (b.2 ≤ a.2)) r.1
    ((sorted.take k).map (fun e => e.1), r.2)

/-- `pickTier(kTier, tierName)` (lines 105-125) for user `uId`: band from
the still-unpicked nearest candidates, weighted sample of `kTier`, then mark
picked and insert edge + tier.  State is `(graph-state, picked, rng)`. -/
def pickTier (powF : ℚ → ℚ → ℚ) (uId : ℕ) (cands : List (ℕ × ℚ)) (kTier : ℕ)
    (tierName : Tier) (bm : ℚ) (st : GB × List ℕ × ℕ) : GB × List ℕ × ℕ :=
  if kTier = 0 then st
  else
    let m := max kTier (⌊bm * (kTier : ℚ)⌋).toNat
    let band := bandGo st.2.1 m cands []
    let ws := weightedSample powF band kTier st.2.2
    let selected := ws.1
    (selected.foldl (fun g e => setTier (addAdj g uId e.1) uId e.1 tierName) st.1,
     selected.foldl (fun pk e => setAdd pk e.1) st.2.1,
     ws.2)

/-- Tier selection for one user (lines 91-131). -/
def phase1User (powF : ℚ → ℚ → ℚ) (n : ℕ) (o : GraphOptions) (st : GB × ℕ)
    (i : ℕ) : GB × ℕ :=
  let cands := candidatesFor n i
  let s1 := pickTier powF i cands (kIntOf n o) Tier.intimate o.bandMultiplier
    (st.1, [], st.2)
  let s2 := pickTier powF i cands (kFriOf n o - kIntOf n o) Tier.friend
    o.bandMultiplier s1
  let s3 := pickTier powF i cands (kAcqOf n o - kFriOf n o) Tier.acquaintance
    o.bandMultiplier s2
  (s3.1, s3.2.2)

def phase1 (powF : ℚ → ℚ → ℚ) (n : ℕ) (o : GraphOptions) (x : ℕ) : GB × ℕ :=
  (List.range n).foldl (phase1User powF n o) (GB.init n, x)

/-- One step of the symmetry pass (lines 136-151) for the directed edge
`(uId, vId)`: add the reverse edge and reconcile the two tiers, keeping the
stronger. -/
def symStep (uId : ℕ) (st : GB) (vId : ℕ) : GB :=
  let st1 := addAdj st vId uId
  match tierAt st1 uId vId, tierAt st1 vId uId with
  | some tUV, some tVU =>
    setTier (setTier st1 uId vId (stronger tUV tVU)) vId uId (stronger tUV tVU)
  | some tUV, none => setTier st1 vId uId tUV
  | none, some tVU => setTier st1 uId vId tVU
  | none, none => st1

/-- The symmetry pass for one user iterates over `adj.get(uId)`, which is
not modified during its own loop (only `adj.get(vId)` with `vId ≠ uId` is
touched), so the live JS `Set` iteration equals iteration over the snapshot. -/
def symUser (st : GB) (uId : ℕ) : GB := (adjAt st uId).foldl (symStep uId) st

def symmetrize (n : ℕ) (st : GB) : GB := (List.range n).foldl symUser st

/-- One accepted bridge pair (lines 169-177): both edge directions, tier
`acquaintance` filled only where missing. -/
def bridgeAdd (st : GB) (uId vId : ℕ) : GB :=
  let st1 := addAdj (addAdj st uId vId) vId uId
  let st2 := if (tierAt st1 uId vId).isSome then st1
    else setTier st1 uId vId Tier.acquaintance
  if (tierAt st2 vId uId).isSome then st2
  else setTier st2 vId uId Tier.acquaintance

/-- The bridge `while` loop (lines 164-181): one rng draw per index,
acceptance probability `(bridgeSample − toAdd)/remaining`. -/
def bridgeLoop (bs uId : ℕ) : List ℕ → ℕ → GB → ℕ → GB × ℕ
  | [], _, st, x => (st, x)
  | v :: rest, toAdd, st, x =>
    if bs ≤ toAdd then (st, x)
    else
      let s := rngStep x
      if s.2 < ((bs - toAdd : ℕ) : ℚ) / (((v :: rest).length : ℕ) : ℚ) then
        bridgeLoop bs uId rest (toAdd + 1) (bridgeAdd st uId v) s.1
      else bridgeLoop bs uId rest toAdd st s.1

def bridgeUser (n : ℕ) (o : GraphOptions) (st : GB × ℕ) (uId : ℕ) : GB × ℕ :=
  let s := rngStep st.2
  if s.2 < o.pBridge then
    let farCandidates := (List.range n).filter
      (fun v => !(v == uId) && !((adjAt st.1 uId).contains v))
    bridgeLoop o.bridgeSample uId farCandidates 0 st.1 s.1
  else (st.1, s.1)

/-- The bridge phase (lines 155-184), gated on
`pBridge > 0 && bridgeSample > 0`. -/
def bridges (n : ℕ) (o : GraphOptions) (st : GB × ℕ) : GB × ℕ :=
  if 0 < o.pBridge ∧ 0 < o.bridgeSample then
    (List.range n).foldl (bridgeUser n o) st
  else st

/-- `getTieredMeshGraph(users, options)` (lines 39-193) for users `0..n−1`:
tier selection per user, symmetry enforcement, then bridges.  The returned
`graph` is `adjAt`, the returned `tierMap` is `tierAt`. -/
def getTieredMeshGraph (powF : ℚ → ℚ → ℚ) (n : ℕ) (o : GraphOptions) : GB :=
  let p1 := phase1 powF n o (makeRNGInit o.seed)
  let sym := symmetrize n p1.1
  (bridges n o (sym, p1.2)).1

end MeshSim

namespace MeshSim

/-! # Theorems for claims C1, C4, C5, C6, C7 -/

/-- **C1** (refuted; the code, not the claim, is at fault): the sentLog is
*not* determined by the configuration `(N, seed, tierProb, T, Hmax,
coverConfig)`.  The recipient written into every new-send sentLog record is
chosen by `pickWeighted`, whose draw is the unseeded `Math.random()`: with
the identical graph, tier map and tier weights, two independent runs whose
`Math.random()` returns `0.25` resp. `0.75` at that call record different
recipients.  (The same unseeded source also drives `poissonSample` and the
community-detection shuffle.) -/
theorem c1_sentLog_depends_on_unseeded_draw :
    newSendRecipient [(0, [1, 2])] (fun _ _ => none) stdTierWeights 0 (1/4) = some 1 ∧
    newSendRecipient [(0, [1, 2])] (fun _ _ => none) stdTierWeights 0 (3/4) = some 2 ∧
    (1 : ℕ) ≠ 2 := by
  refine ⟨?_, ?_, by decide⟩ <;>
    norm_num [newSendRecipient, pickWeighted, pickWGo, lookupG, List.find?, List.zip,
      List.zipWith, stdTierWeights, List.sum]

theorem mersenne31_coprime : Nat.Coprime 2147483647 16807 := by norm_num

/-- The Lehmer state stays in `[1, 2^31−2]`: the modulus `2^31−1` is coprime
to the multiplier `16807 = 7^5`, so a nonzero state never maps to zero. -/
theorem lehmerNext_mem {x : ℕ} (hx0 : 1 ≤ x) (hx1 : x < 2147483647) :
    1 ≤ lehmerNext x ∧ lehmerNext x < 2147483647 := by
  unfold lehmerNext
  refine ⟨?_, Nat.mod_lt _ (by norm_num)⟩
  rcases Nat.eq_zero_or_pos ((x * 16807) % 2147483647) with h | h
  · exfalso
    have hdvd : 2147483647 ∣ x * 16807 := Nat.dvd_of_mod_eq_zero h
    have hx : 2147483647 ∣ x := mersenne31_coprime.dvd_of_dvd_mul_right hdvd
    exact absurd (Nat.le_of_dvd (by omega) hx) (by omega)
  · exact h

theorem rngStep_nonneg {x : ℕ} (hx0 : 1 ≤ x) (hx1 : x < 2147483647) :
    0 ≤ (rngStep x).2 := by
  have h := (lehmerNext_mem hx0 hx1).1
  have : (1 : ℚ) ≤ (lehmerNext x : ℚ) := by exact_mod_cast h
  unfold rngStep
  have : (0 : ℚ) ≤ (lehmerNext x : ℚ) - 1 := by linarith
  positivity

/-- Lehmer state validity. -/
def LehmerOk (x : ℕ) : Prop := 1 ≤ x ∧ x < 2147483647

theorem genMsgs_spec (uid : ℕ) (hs hl : ℚ) (hhl : 0 ≤ hl) :
    ∀ (k : ℕ) (x : ℕ), LehmerOk x →
      (∀ ev ∈ (genMsgs uid hs hl k x).1, hs ≤ ev.t) ∧
      LehmerOk (genMsgs uid hs hl k x).2 := by
  intro k
  induction k with
  | zero => intro x hx; exact ⟨by simp [genMsgs], hx⟩
  | succ k ih =>
    intro x hx
    have hx1 : LehmerOk (rngStep x).1 := lehmerNext_mem hx.1 hx.2
    have hu : 0 ≤ (rngStep x).2 := rngStep_nonneg hx.1 hx.2
    obtain ⟨hmem, hst⟩ := ih (rngStep x).1 hx1
    constructor
    · intro ev hev
      simp only [genMsgs, List.mem_cons] at hev
      rcases hev with h | h
      · rw [h]
        show hs ≤ hs + (rngStep x).2 * hl
        nlinarith [mul_nonneg hu hhl]
      · exact hmem ev h
    · simpa [genMsgs] using hst

theorem genUserHour_spec (uid : ℕ) (rate hs hl mult : ℚ) (hhl : 0 ≤ hl)
    (x : ℕ) (hx : LehmerOk x) :
    (∀ ev ∈ (genUserHour uid rate hs hl mult x).1, hs ≤ ev.t) ∧
    LehmerOk (genUserHour uid rate hs hl mult x).2 := by
  unfold genUserHour
  have hx1 : LehmerOk (rngStep x).1 := lehmerNext_mem hx.1 hx.2
  have hx2 : LehmerOk (rngStep (rngStep x).1).1 := lehmerNext_mem hx1.1 hx1.2
  by_cases h : (rngStep x).2 < min (4 / 5) (rate / 24 * mult)
  · simpa [h] using genMsgs_spec uid hs hl hhl _ _ hx2
  · simpa [h] using hx1

theorem genHourAll_spec (hs hl mult : ℚ) (hhl : 0 ≤ hl) :
    ∀ (rates : List (ℕ × ℚ)) (x : ℕ), LehmerOk x →
      (∀ ev ∈ (genHourAll rates hs hl mult x).1, hs ≤ ev.t) ∧
      LehmerOk (genHourAll rates hs hl mult x).2 := by
  intro rates
  induction rates with
  | nil => intro x hx; exact ⟨by simp [genHourAll], hx⟩
  | cons r rest ih =>
    intro x hx
    obtain ⟨hm1, hs1⟩ := genUserHour_spec r.1 r.2 hs hl mult hhl x hx
    obtain ⟨hm2, hs2⟩ := ih _ hs1
    refine ⟨?_, by simpa [genHourAll] using hs2⟩
    intro ev hev
    simp only [genHourAll, List.mem_append] at hev
    rcases hev with h | h
    · exact hm1 ev h
    · exact hm2 ev h

theorem genHours_spec (rates : List (ℕ × ℚ)) (start hl : ℚ) (hhl : 0 ≤ hl) :
    ∀ (hoursLeft hour : ℕ) (x : ℕ), LehmerOk x →
      (∀ ev ∈ (genHours rates start hl hoursLeft hour x).1, start ≤ ev.t) ∧
      LehmerOk (genHours rates start hl hoursLeft hour x).2 := by
  intro hoursLeft
  induction hoursLeft with
  | zero => intro hour x hx; exact ⟨by simp [genHours], hx⟩
  | succ k ih =>
    intro hour x hx
    have hhs : start ≤ start + (hour : ℚ) * hl := by
      nlinarith [mul_nonneg (show (0:ℚ) ≤ (hour : ℚ) by positivity) hhl]
    obtain ⟨hm1, hs1⟩ := genHourAll_spec (start + (hour : ℚ) * hl) hl
      (campusActivityPattern.getD ((8 + hour) % 24) 0) hhl rates x hx
    obtain ⟨hm2, hs2⟩ := ih (hour + 1) _ hs1
    refine ⟨?_, by simpa [genHours] using hs2⟩
    intro ev hev
    simp only [genHours, List.mem_append] at hev
    rcases hev with h | h
    · exact le_trans hhs (hm1 ev h)
    · exact hm2 ev h

/-- **C4**: (a) any event with timestamp `t ≥ dayMs` is assigned the final
bucket `totalSubEpochs − 1`: its base bucket is at least `totalSubEpochs`,
the jitter is `−1` or `0`, and the sum is clamped to `totalSubEpochs − 1`;
(b) every event produced by `generateEventsForHours` has a timestamp
`≥ epochStartMs` (with the default `epochStartMs = Date.now() ≥ dayMs`, all
generated events therefore land in the last sub-epoch). -/
theorem c4_all_events_last_subEpoch (t u : ℚ) (total : ℕ) (x : ℕ)
    (rates : List (ℕ × ℚ)) (hours : ℕ) (start : ℚ)
    (htotal : 1 ≤ total) (ht : (dayMs : ℚ) ≤ t) (hu0 : 0 ≤ u) (hu1 : u < 1)
    (hx : LehmerOk x) :
    assignSubEpoch t u total = (total : ℤ) - 1 ∧
    ∀ ev ∈ generateEventsForHours rates hours start 3600000 x, start ≤ ev.t := by
  constructor
  · unfold assignSubEpoch
    have hday : (0 : ℚ) < (dayMs : ℚ) := by norm_num [dayMs]
    have h1 : (1 : ℚ) ≤ t / (dayMs : ℚ) := (one_le_div hday).mpr ht
    have htot : (1 : ℚ) ≤ (total : ℚ) := by exact_mod_cast htotal
    have hbase : (total : ℤ) ≤ ⌊t / (dayMs : ℚ) * (total : ℚ)⌋ := by
      rw [Int.le_floor]
      push_cast
      nlinarith
    have hjit_lo : (-1 : ℤ) ≤ ⌊(u - 1 / 2) * 2⌋ := by
      rw [Int.le_floor]; push_cast; linarith
    have hjit_hi : ⌊(u - 1 / 2) * 2⌋ ≤ 0 := by
      have : ⌊(u - 1 / 2) * 2⌋ < 1 := by
        rw [Int.floor_lt]; push_cast; linarith
      omega
    have htot' : (1 : ℤ) ≤ (total : ℤ) := by exact_mod_cast htotal
    show max 0 (min ((total : ℤ) - 1)
      (⌊t / (dayMs : ℚ) * (total : ℚ)⌋ + ⌊(u - 1 / 2) * 2⌋)) = (total : ℤ) - 1
    omega
  · intro ev hev
    exact (genHours_spec rates start 3600000 (by norm_num) hours 0 x hx).1 ev hev

/-- Witness for `c4_all_events_last_subEpoch`: a concrete instantiation with
`t` one day plus one hour, `u = 0.9`, 1200 sub-epochs, seed state 3. -/
theorem c4_witness :
    assignSubEpoch (90000000 : ℚ) (9/10) 1200 = (1200 : ℤ) - 1 ∧
    ∀ ev ∈ generateEventsForHours [(0, 24)] 1 (90000000 : ℚ) 3600000 3,
      (90000000 : ℚ) ≤ ev.t := by
  exact c4_all_events_last_subEpoch 90000000 (9/10) 1200 3 [(0, 24)] 1 90000000
    (by norm_num) (by norm_num [dayMs]) (by norm_num) (by norm_num)
    ⟨by norm_num, by norm_num⟩

/-- A fresh thread refuses every check at an epoch later than 10 and is left
untouched by it. -/
theorem shouldContinue_new_late {t : ℤ} (ht : 10 < t) (rng : Rng) :
    shouldContinue ConversationThread.new t rng = (false, rng) := by
  unfold shouldContinue ConversationThread.new maxConversationLength
  norm_num
  omega

theorem threadCheck_new_late {t : ℤ} (ht : 10 < t) (pathOk : Bool) (rng : Rng) :
    threadCheck ConversationThread.new t pathOk rng =
      (ConversationThread.new, false, rng) := by
  unfold threadCheck
  rw [shouldContinue_new_late ht]
  simp

/-- **C5**: a `ConversationThread` is constructed with `lastActive = 0`;
`shouldContinue(t, rng)` returns `false` whenever `t − lastActive > 10`;
hence a thread first created at an epoch `> 10` never emits a reply — every
check processed at an epoch `> 10` is refused and leaves the thread at its
initial state, so no reply-queue entry of such a thread produces a message. -/
theorem c5_late_thread_never_replies (checks : List (ℤ × Bool)) (rng : Rng)
    (h : ∀ c ∈ checks, 10 < c.1) :
    ConversationThread.new.lastActive = 0 ∧
    (∀ (th : ConversationThread) (t : ℤ) (r : Rng), 10 < t - th.lastActive →
      (shouldContinue th t r).1 = false) ∧
    (runChecks ConversationThread.new rng checks).2.1 = 0 := by
  refine ⟨rfl, ?_, ?_⟩
  · intro th t r hlate
    unfold shouldContinue
    by_cases hc : maxConversationLength ≤ th.messageCount
    · simp [hc]
    · simp [hc, hlate]
  · induction checks generalizing rng with
    | nil => simp [runChecks]
    | cons c rest ih =>
      have hc : 10 < c.1 := h c (by simp)
      have hrest : ∀ c' ∈ rest, 10 < c'.1 := fun c' hc' => h c' (by simp [hc'])
      obtain ⟨t, pathOk⟩ := c
      show (runChecks ConversationThread.new rng ((t, pathOk) :: rest)).2.1 = 0
      unfold runChecks
      rw [threadCheck_new_late hc]
      simpa using ih rng hrest

/-- Witness for `c5_late_thread_never_replies`: one reply-queue check at
epoch 11 with a path available. -/
theorem c5_witness :
    ConversationThread.new.lastActive = 0 ∧
    (∀ (th : ConversationThread) (t : ℤ) (r : Rng), 10 < t - th.lastActive →
      (shouldContinue th t r).1 = false) ∧
    (runChecks ConversationThread.new [1/2] [(11, true)]).2.1 = 0 :=
  c5_late_thread_never_replies [(11, true)] [1/2] (by decide)

/-- **C6** (the code contradicts the claim): with `observed = [1]` and the
contacts `(t=3, pair {1,2}, count 2)` and `(t=5, pair {1,22}, count 7)`, the
`totalVolume` that `_analyzeRelationship` computes for the pair `(1,2)` is
`9`, not `2`: the matcher `tk.startsWith(edgeKey)` accepts the key
`"1-22-5"` because the string `"1-2"` is a prefix of it, so counts recorded
for the distinct pair `(1,22)` contribute to `(1,2)`. -/
theorem c6_totalVolume_prefix_collision :
    totalVolume (buildLinkCounts [1] [⟨3, 1, 2, 2⟩, ⟨5, 1, 22, 7⟩]) 1 2 = 9 ∧
    exactPairVolume [1] [⟨3, 1, 2, 2⟩, ⟨5, 1, 22, 7⟩] 1 2 = 2 ∧
    (9 : ℕ) ≠ 2 := by
  decide

/-- **C7** (refuted at this input): with estimated neighbors `{5}` and true
adjacency `[7]`, the intersection is empty but the code does **not** fall
back to `adj(s)`: the candidate set is `[]` and no guess is produced, while
the claim's candidate set is `[7]` and it asserts a guess is produced. -/
theorem c7_counterexample :
    candidateSet (some [5]) [7] = [] ∧
    candidateSetSpec (some [5]) [7] = [7] ∧
    guessProduced (some [5]) [7] = false ∧
    ([7] : List ℕ) ≠ [] := by
  decide

/-- **C7 amended**: the candidate set equals
`estimatedNeighbors(s) ∩ adj(s)` whenever the estimated neighbor set exists
and is non-empty — even when the intersection is empty, in which case no
guess is produced — and equals `adj(s)` only when the estimated set is
absent or empty; a guess is produced iff `adj(s)` and the candidate set are
both non-empty. -/
theorem c7_amended_candidate_set (e nbrs : List ℕ) (h : e ≠ []) :
    candidateSet (some e) nbrs = e.filter (fun n => nbrs.contains n) ∧
    candidateSet none nbrs = nbrs ∧
    candidateSet (some []) nbrs = nbrs ∧
    (guessProduced (some e) nbrs = true ↔
      nbrs ≠ [] ∧ e.filter (fun n => nbrs.contains n) ≠ []) := by
  have he : 0 < e.length := List.length_pos.mpr h
  refine ⟨by simp [candidateSet, he], rfl, rfl, ?_⟩
  unfold guessProduced candidateSet
  simp [he, List.isEmpty_iff]

/-- Witness for `c7_amended_candidate_set` at `e = [1]`, `nbrs = [1]`. -/
theorem c7_amended_witness :
    candidateSet (some [1]) [1] = List.filter (fun n => List.contains [1] n) [1] ∧
    candidateSet none [1] = [1] ∧
    candidateSet (some []) [1] = [1] ∧
    (guessProduced (some [1]) [1] = true ↔
      ([1] : List ℕ) ≠ [] ∧ List.filter (fun n => List.contains [1] n) [1] ≠ []) :=
  c7_amended_candidate_set [1] [1] (by decide)

/-! ### Path-selection invariants (claims C2, C3, C9) -/

theorem contains_true_iff (l : List ℕ) (n : ℕ) : l.contains n = true ↔ n ∈ l := by
  simp

theorem getLastD_of_getLast? {p : List ℕ} {c : ℕ} (h : p.getLast? = some c) :
    p.getLastD 0 = c := by
  rw [List.getLastD_eq_getLast?, h]
  rfl

theorem chainOk_concat (g : Graph) :
    ∀ (p : List ℕ), p ≠ [] → chainOk g p = true →
      ∀ n, n ∈ lookupG g (p.getLastD 0) → chainOk g (p ++ [n]) = true := by
  intro p
  induction p with
  | nil => intro h; exact absurd rfl h
  | cons a t ih =>
    intro _ hc n hn
    cases t with
    | nil =>
      have hn' : n ∈ lookupG g a := by simpa [List.getLastD] using hn
      show chainOk g [a, n] = true
      simp [chainOk, hn']
    | cons b t' =>
      simp only [chainOk, Bool.and_eq_true] at hc
      have hlast : (a :: b :: t').getLastD 0 = (b :: t').getLastD 0 := by
        simp [List.getLastD]
      rw [hlast] at hn
      simp only [List.cons_append, chainOk, Bool.and_eq_true]
      exact ⟨hc.1, by simpa using ih (by simp) hc.2 n hn⟩

theorem chainOk_join (g : Graph) :
    ∀ (p : List ℕ) (x : ℕ) (q : List ℕ), p.getLast? = some x →
      chainOk g p = true → chainOk g (x :: q) = true →
      chainOk g (p ++ q) = true := by
  intro p
  induction p with
  | nil => intro x q h; simp at h
  | cons a t ih =>
    intro x q hlast hc hq
    cases t with
    | nil =>
      simp only [List.getLast?_singleton, Option.some.injEq] at hlast
      subst hlast
      simpa using hq
    | cons b t' =>
      simp only [chainOk, Bool.and_eq_true] at hc
      have hlast' : (b :: t').getLast? = some x := by
        rw [← hlast]; simp [List.getLast?_cons_cons]
      simp only [List.cons_append, chainOk, Bool.and_eq_true]
      exact ⟨hc.1, by simpa using ih x q hlast' hc.2 hq⟩

theorem head?_append_left {p : List ℕ} (q : List ℕ) (h : p ≠ []) :
    (p ++ q).head? = p.head? := by
  cases p with
  | nil => exact absurd rfl h
  | cons a t => simp

theorem getLast?_append_right (p : List ℕ) {q : List ℕ} (h : q ≠ []) :
    (p ++ q).getLast? = q.getLast? := by
  induction p with
  | nil => simp
  | cons a t ih =>
    rw [List.cons_append]
    cases ht : t ++ q with
    | nil =>
      exact absurd (by simpa using congrArg List.isEmpty ht) (by simp [h])
    | cons b u =>
      rw [List.getLast?_cons_cons, ← ht, ih]

theorem pathInv_concat {g : Graph} {src : ℕ} {p : List ℕ} (hp : PathInv g src p)
    {n : ℕ} (hn : n ∈ lookupG g (p.getLastD 0)) : PathInv g src (p ++ [n]) := by
  obtain ⟨hne, hh, hc⟩ := hp
  exact ⟨by simp, by rw [head?_append_left _ hne]; exact hh,
    chainOk_concat g p hne hc n hn⟩

theorem spNbrs_skip {dst n : ℕ} {path : List ℕ} {rest : List ℕ}
    {q : List (List ℕ)} {seen : List ℕ} (h : seen.contains n = true) :
    spNbrs dst path (n :: rest) q seen = spNbrs dst path rest q seen := by
  simp only [spNbrs]
  rw [if_pos h]

theorem spNbrs_hit {dst n : ℕ} {path : List ℕ} {rest : List ℕ}
    {q : List (List ℕ)} {seen : List ℕ} (h : ¬ seen.contains n = true)
    (h2 : n = dst) :
    spNbrs dst path (n :: rest) q seen = (some (path ++ [n]), q, seen) := by
  simp only [spNbrs]
  rw [if_neg h, if_pos h2]

theorem spNbrs_push {dst n : ℕ} {path : List ℕ} {rest : List ℕ}
    {q : List (List ℕ)} {seen : List ℕ} (h : ¬ seen.contains n = true)
    (h2 : ¬ n = dst) :
    spNbrs dst path (n :: rest) q seen =
      spNbrs dst path rest (q ++ [path ++ [n]]) (seen ++ [n]) := by
  simp only [spNbrs]
  rw [if_neg h, if_neg h2]

/-- `spNbrs` preserves the queue invariant, and a hit is `path ++ [dst]`. -/
theorem spNbrs_spec (g : Graph) (src dst : ℕ) (path : List ℕ)
    (hpi : PathInv g src path) :
    ∀ (nbrs : List ℕ), (∀ n ∈ nbrs, n ∈ lookupG g (path.getLastD 0)) →
    ∀ (q : List (List ℕ)) (seen : List ℕ), (∀ p ∈ q, PathInv g src p) →
      (∀ p ∈ (spNbrs dst path nbrs q seen).2.1, PathInv g src p) ∧
      (∀ p, (spNbrs dst path nbrs q seen).1 = some p →
        p = path ++ [dst] ∧ PathInv g src p ∧ p.getLast? = some dst ∧
        p.length = path.length + 1) := by
  intro nbrs
  induction nbrs with
  | nil =>
    intro _ q seen hq
    exact ⟨hq, by intro p hp; simp [spNbrs] at hp⟩
  | cons n rest ih =>
    intro hmem q seen hq
    have hn : n ∈ lookupG g (path.getLastD 0) := hmem n (by simp)
    have hrest : ∀ m ∈ rest, m ∈ lookupG g (path.getLastD 0) :=
      fun m hm => hmem m (by simp [hm])
    by_cases hseen : seen.contains n = true
    · rw [spNbrs_skip hseen]
      exact ih hrest q seen hq
    · by_cases hdst : n = dst
      · rw [spNbrs_hit hseen hdst]
        subst hdst
        refine ⟨hq, ?_⟩
        intro p hp
        simp only [Option.some.injEq] at hp
        subst hp
        exact ⟨rfl, pathInv_concat hpi hn, by simp, by simp⟩
      · rw [spNbrs_push hseen hdst]
        have hq' : ∀ p ∈ q ++ [path ++ [n]], PathInv g src p := by
          intro p hp
          rcases List.mem_append.mp hp with h | h
          · exact hq p h
          · simp only [List.mem_singleton] at h
            subst h
            exact pathInv_concat hpi hn
        exact ih hrest (q ++ [path ++ [n]]) (seen ++ [n]) hq'

/-- Whatever `spLoop` returns is a `src → dst` path along edges with at most
`Hmax + 2` nodes. -/
theorem spLoop_spec (g : Graph) (src dst Hmax : ℕ) :
    ∀ (fuel : ℕ) (q : List (List ℕ)) (seen : List ℕ),
      (∀ p ∈ q, PathInv g src p) →
      ∀ p, spLoop g dst Hmax fuel q seen = some p →
        PathInv g src p ∧ p.getLast? = some dst ∧ p.length ≤ Hmax + 2 := by
  intro fuel
  induction fuel with
  | zero => intro q seen _ p hp; simp [spLoop] at hp
  | succ fuel ih =>
    intro q seen hq p hp
    cases q with
    | nil => simp [spLoop] at hp
    | cons path rest =>
      have hpath : PathInv g src path := hq path (by simp)
      have hrest : ∀ p' ∈ rest, PathInv g src p' := fun p' h => hq p' (by simp [h])
      by_cases hlen : Hmax + 1 < path.length
      · rw [spLoop, if_pos hlen] at hp
        exact ih rest seen hrest p hp
      · rw [spLoop, if_neg hlen] at hp
        dsimp only at hp
        obtain ⟨hqinv, hhit⟩ := spNbrs_spec g src dst path hpath
          (lookupG g (path.getLastD 0)) (fun n hn => hn) rest seen hrest
        cases hres : (spNbrs dst path (lookupG g (path.getLastD 0)) rest seen).1 with
        | some p' =>
          rw [hres] at hp
          simp only [Option.some.injEq] at hp
          subst hp
          obtain ⟨_, hinv, hlast, hplen⟩ := hhit p' hres
          have : ¬ Hmax + 1 < path.length := hlen
          exact ⟨hinv, hlast, by omega⟩
        | none =>
          rw [hres] at hp
          exact ih _ _ hqinv p hp

/-- Any result of `shortestPath` starts at `src`, ends at `dst`, follows
edges, and has at most `Hmax + 2` nodes (note: `Hmax + 2`, not `Hmax + 1` —
the BFS length check is an off-by-one). -/
theorem shortestPath_spec (g : Graph) (src dst Hmax : ℕ) (p : List ℕ)
    (hp : shortestPath g src dst Hmax = some p) :
    PathInv g src p ∧ p.getLast? = some dst ∧ p.length ≤ Hmax + 2 := by
  unfold shortestPath at hp
  by_cases h : src = dst
  · rw [if_pos h] at hp
    simp only [Option.some.injEq] at hp
    subst hp
    subst h
    exact ⟨⟨by simp, by simp, by simp [chainOk]⟩, by simp, by simp⟩
  · rw [if_neg h] at hp
    refine spLoop_spec g src dst Hmax (graphFuel g) [[src]] [src] ?_ p hp
    intro q hq
    simp only [List.mem_singleton] at hq
    subst hq
    exact ⟨by simp, by simp, by simp [chainOk]⟩

/-- `spNbrs` hits as soon as `dst` is among the neighbors and unseen. -/
theorem spNbrs_finds (dst : ℕ) (path : List ℕ) :
    ∀ (nbrs : List ℕ) (q : List (List ℕ)) (seen : List ℕ),
      dst ∈ nbrs → ¬ dst ∈ seen →
      (spNbrs dst path nbrs q seen).1 = some (path ++ [dst]) := by
  intro nbrs
  induction nbrs with
  | nil => intro q seen h; simp at h
  | cons n rest ih =>
    intro q seen hmem hseen
    by_cases hdst : n = dst
    · have hns : ¬ seen.contains n = true := by
        subst hdst; simpa using hseen
      rw [spNbrs_hit hns hdst, hdst]
    · have hmem' : dst ∈ rest := by
        rcases List.mem_cons.mp hmem with h | h
        · exact absurd h.symm hdst
        · exact h
      by_cases hseen' : seen.contains n = true
      · rw [spNbrs_skip hseen']
        exact ih q seen hmem' hseen
      · have hnotin : ¬ dst ∈ seen ++ [n] := by
          simp only [List.mem_append, List.mem_singleton]
          rintro (h | h)
          · exact hseen h
          · exact hdst h.symm
        rw [spNbrs_push hseen' hdst]
        exact ih (q ++ [path ++ [n]]) (seen ++ [n]) hmem' hnotin

/-- For a direct neighbor the BFS returns the two-node path at once. -/
theorem shortestPath_adjacent (g : Graph) (src dst Hmax : ℕ)
    (hsd : src ≠ dst) (hadj : dst ∈ lookupG g src) :
    shortestPath g src dst Hmax = some [src, dst] := by
  unfold shortestPath
  rw [if_neg hsd]
  show spLoop g dst Hmax (2 + (g.map (fun e => e.2.length)).sum) [[src]] [src] = _
  rw [show 2 + (g.map (fun e => e.2.length)).sum =
    (1 + (g.map (fun e => e.2.length)).sum) + 1 by omega]
  rw [spLoop]
  rw [if_neg (by simp)]
  have hfind : (spNbrs dst [src] (lookupG g ([src].getLastD 0)) [] [src]).1 =
      some ([src] ++ [dst]) := by
    refine spNbrs_finds dst [src] _ [] [src] ?_ ?_
    · simpa [List.getLastD] using hadj
    · simp [hsd.symm]
  simp only
  rw [hfind]
  simp

/-- A found path for cap `cap`: a full `src → dst` path of at most `cap + 2`
nodes. -/
def FoundInv (g : Graph) (src dst cap : ℕ) (p : List ℕ) : Prop :=
  PathInv g src p ∧ p.getLast? = some dst ∧ p.length ≤ cap + 2

theorem fdNbrs_skip {dst n : ℕ} {path rest : List ℕ} {q : List (List ℕ)}
    {seen : List ℕ} {found : List (List ℕ)}
    (h : (seen.contains n && !(n == dst)) = true) :
    fdNbrs dst path (n :: rest) q seen found = fdNbrs dst path rest q seen found := by
  simp only [fdNbrs]
  rw [if_pos h]

theorem fdNbrs_hit_break {dst n : ℕ} {path rest : List ℕ} {q : List (List ℕ)}
    {seen : List ℕ} {found : List (List ℕ)}
    (h : ¬ (seen.contains n && !(n == dst)) = true) (h2 : n = dst)
    (h3 : 20 ≤ (found ++ [path ++ [n]]).length) :
    fdNbrs dst path (n :: rest) q seen found = (q, seen, found ++ [path ++ [n]]) := by
  simp only [fdNbrs]
  rw [if_neg h, if_pos h2, if_pos h3]

theorem fdNbrs_hit_cont {dst n : ℕ} {path rest : List ℕ} {q : List (List ℕ)}
    {seen : List ℕ} {found : List (List ℕ)}
    (h : ¬ (seen.contains n && !(n == dst)) = true) (h2 : n = dst)
    (h3 : ¬ 20 ≤ (found ++ [path ++ [n]]).length) :
    fdNbrs dst path (n :: rest) q seen found =
      fdNbrs dst path rest q seen (found ++ [path ++ [n]]) := by
  simp only [fdNbrs]
  rw [if_neg h, if_pos h2, if_neg h3]

theorem fdNbrs_push {dst n : ℕ} {path rest : List ℕ} {q : List (List ℕ)}
    {seen : List ℕ} {found : List (List ℕ)}
    (h : ¬ (seen.contains n && !(n == dst)) = true) (h2 : ¬ n = dst) :
    fdNbrs dst path (n :: rest) q seen found =
      fdNbrs dst path rest (q ++ [path ++ [n]]) (seen ++ [n]) found := by
  simp only [fdNbrs]
  rw [if_neg h, if_neg h2]

/-- `fdNbrs` preserves the queue and found invariants. -/
theorem fdNbrs_spec (g : Graph) (src dst cap : ℕ) (path : List ℕ)
    (hpi : PathInv g src path) (hplen : path.length ≤ cap + 1) :
    ∀ (nbrs : List ℕ), (∀ n ∈ nbrs, n ∈ lookupG g (path.getLastD 0)) →
    ∀ (q : List (List ℕ)) (seen : List ℕ) (found : List (List ℕ)),
      (∀ p ∈ q, PathInv g src p) → (∀ p ∈ found, FoundInv g src dst cap p) →
      (∀ p ∈ (fdNbrs dst path nbrs q seen found).1, PathInv g src p) ∧
      (∀ p ∈ (fdNbrs dst path nbrs q seen found).2.2, FoundInv g src dst cap p) := by
  intro nbrs
  induction nbrs with
  | nil =>
    intro _ q seen found hq hf
    exact ⟨hq, hf⟩
  | cons n rest ih =>
    intro hmem q seen found hq hf
    have hn : n ∈ lookupG g (path.getLastD 0) := hmem n (by simp)
    have hrest : ∀ m ∈ rest, m ∈ lookupG g (path.getLastD 0) :=
      fun m hm => hmem m (by simp [hm])
    by_cases hskip : (seen.contains n && !(n == dst)) = true
    · rw [fdNbrs_skip hskip]
      exact ih hrest q seen found hq hf
    · by_cases hdst : n = dst
      · have hf' : ∀ p ∈ found ++ [path ++ [n]], FoundInv g src dst cap p := by
          intro p hp
          rcases List.mem_append.mp hp with h | h
          · exact hf p h
          · simp only [List.mem_singleton] at h
            subst h
            refine ⟨pathInv_concat hpi hn, ?_, ?_⟩
            · rw [hdst]; simp
            · simp only [List.length_append, List.length_singleton]
              omega
        by_cases hbreak : 20 ≤ (found ++ [path ++ [n]]).length
        · rw [fdNbrs_hit_break hskip hdst hbreak]
          exact ⟨hq, hf'⟩
        · rw [fdNbrs_hit_cont hskip hdst hbreak]
          exact ih hrest q seen (found ++ [path ++ [n]]) hq hf'
      · rw [fdNbrs_push hskip hdst]
        have hq' : ∀ p ∈ q ++ [path ++ [n]], PathInv g src p := by
          intro p hp
          rcases List.mem_append.mp hp with h | h
          · exact hq p h
          · simp only [List.mem_singleton] at h
            subst h
            exact pathInv_concat hpi hn
        exact ih hrest (q ++ [path ++ [n]]) (seen ++ [n]) found hq' hf

/-- Everything `fdLoop` returns satisfies the found invariant. -/
theorem fdLoop_spec (g : Graph) (src dst cap : ℕ) :
    ∀ (fuel : ℕ) (q : List (List ℕ)) (seen : List ℕ) (found : List (List ℕ)),
      (∀ p ∈ q, PathInv g src p) → (∀ p ∈ found, FoundInv g src dst cap p) →
      ∀ p ∈ fdLoop g dst cap fuel q seen found, FoundInv g src dst cap p := by
  intro fuel
  induction fuel with
  | zero =>
    intro q seen found _ hf p hp
    exact hf p hp
  | succ fuel ih =>
    intro q seen found hq hf p hp
    cases q with
    | nil => exact hf p hp
    | cons path rest =>
      have hpath : PathInv g src path := hq path (by simp)
      have hrest : ∀ p' ∈ rest, PathInv g src p' := fun p' h => hq p' (by simp [h])
      by_cases hfull : 20 ≤ found.length
      · rw [fdLoop, if_pos hfull] at hp
        exact hf p hp
      · by_cases hlen : cap + 1 < path.length
        · rw [fdLoop, if_neg hfull, if_pos hlen] at hp
          exact ih rest seen found hrest hf p hp
        · rw [fdLoop, if_neg hfull, if_neg hlen] at hp
          dsimp only at hp
          obtain ⟨hq', hf'⟩ := fdNbrs_spec g src dst cap path hpath (by omega)
            (lookupG g (path.getLastD 0)) (fun n hn => hn) rest seen found hrest hf
          exact ih _ _ _ hq' hf' p hp

theorem rouletteGo_mem :
    ∀ (scored : List (List ℕ × ℚ)) (r : ℚ) (p : List ℕ),
      rouletteGo scored r = some p → p ∈ scored.map (fun x => x.1) := by
  intro scored
  induction scored with
  | nil => intro r p hp; simp [rouletteGo] at hp
  | cons e rest ih =>
    intro r p hp
    obtain ⟨pe, se⟩ := e
    by_cases h : r - se ≤ 0
    · rw [rouletteGo, if_pos h] at hp
      simp only [Option.some.injEq] at hp
      subst hp
      simp
    · rw [rouletteGo, if_neg h] at hp
      simpa using Or.inr (by simpa using ih (r - se) p hp)

theorem headD_mem {l : List (List ℕ)} (h : l ≠ []) : l.headD [] ∈ l := by
  cases l with
  | nil => exact absurd rfl h
  | cons a t => simp

/-- Any path `findDiversePath` returns runs `src → dst` along edges with at
most `cap + 2` nodes. -/
theorem findDiversePath_spec (g : Graph) (src dst cap : ℕ)
    (tr : PathDiversityTracker) (rng : Rng) (p : List ℕ)
    (hp : (findDiversePath g src dst cap tr rng).1 = some p) :
    PathInv g src p ∧ p.getLast? = some dst ∧ p.length ≤ cap + 2 := by
  unfold findDiversePath at hp
  by_cases h : src = dst
  · rw [if_pos h] at hp
    simp only [Option.some.injEq] at hp
    subst hp
    subst h
    exact ⟨⟨by simp, by simp, by simp [chainOk]⟩, by simp, by simp⟩
  · rw [if_neg h] at hp
    have hinv : ∀ p' ∈ fdLoop g dst cap (graphFuel g) [[src]] [src] [],
        FoundInv g src dst cap p' := by
      refine fdLoop_spec g src dst cap (graphFuel g) [[src]] [src] [] ?_ (by simp)
      intro q hq
      simp only [List.mem_singleton] at hq
      subst hq
      exact ⟨by simp, by simp, by simp [chainOk]⟩
    by_cases hempty : (fdLoop g dst cap (graphFuel g) [[src]] [src] []).isEmpty = true
    · rw [if_pos hempty] at hp
      simp at hp
    · rw [if_neg hempty] at hp
      dsimp only at hp
      have hne : fdLoop g dst cap (graphFuel g) [[src]] [src] [] ≠ [] := by
        simpa [List.isEmpty_iff] using hempty
      cases hres : rouletteGo
          ((fdLoop g dst cap (graphFuel g) [[src]] [src] []).map
            (fun p' => (p', scorePath tr p')))
          ((rngNext rng).1 *
            (((fdLoop g dst cap (graphFuel g) [[src]] [src] []).map
              (fun p' => (p', scorePath tr p'))).map (fun x => x.2)).sum) with
      | some p' =>
        rw [hres] at hp
        simp only [Option.some.injEq] at hp
        subst hp
        have := rouletteGo_mem _ _ p' hres
        simp only [List.map_map] at this
        have hmem : p' ∈ fdLoop g dst cap (graphFuel g) [[src]] [src] [] := by
          simpa using this
        exact hinv p' hmem
      | none =>
        rw [hres] at hp
        simp only [Option.some.injEq] at hp
        subst hp
        exact hinv _ (headD_mem hne)

theorem validRng_head {rs : Rng} (h : ValidRng rs) :
    0 ≤ (rngNext rs).1 ∧ (rngNext rs).1 < 1 := by
  cases rs with
  | nil => exact ⟨by norm_num [rngNext], by norm_num [rngNext]⟩
  | cons r t => exact h r (by simp [rngNext])

theorem validRng_tail {rs : Rng} (h : ValidRng rs) : ValidRng (rngNext rs).2 := by
  cases rs with
  | nil => exact h
  | cons r t => exact fun r' hr' => h r' (by simp [rngNext]; exact Or.inr hr')

theorem getD_mem : ∀ (l : List ℕ) (i : ℕ), i < l.length → l.getD i 0 ∈ l := by
  intro l
  induction l with
  | nil => intro i h; simp at h
  | cons a t ih =>
    intro i h
    cases i with
    | zero => simp
    | succ j =>
      have := ih j (by simpa using h)
      simp only [List.getD_cons_succ]
      exact List.mem_cons_of_mem a this

/-- The random-walk next node is always a neighbor of the current node. -/
theorem rwPick_mem (neighbors seen : List ℕ) (u : ℚ)
    (hne : neighbors ≠ []) (hu0 : 0 ≤ u) (hu1 : u < 1) :
    rwPick neighbors seen u ∈ neighbors := by
  unfold rwPick
  dsimp only
  set unvisited := neighbors.filter (fun n => !seen.contains n) with hunv
  by_cases hcase : 0 < unvisited.length
  · rw [if_pos hcase]
    have hlen : ((⌊u * (unvisited.length : ℚ)⌋).toNat) < unvisited.length := by
      have h0 : (0 : ℤ) ≤ ⌊u * (unvisited.length : ℚ)⌋ := by
        apply Int.floor_nonneg.mpr
        positivity
      have hlt : ⌊u * (unvisited.length : ℚ)⌋ < (unvisited.length : ℤ) := by
        apply Int.floor_lt.mpr
        push_cast
        nlinarith [show (0 : ℚ) < (unvisited.length : ℚ) by exact_mod_cast hcase]
      omega
    have hm := getD_mem unvisited _ hlen
    have hsub : unvisited ⊆ neighbors := by
      rw [hunv]
      exact fun x hx => (List.mem_filter.mp hx).1
    exact hsub hm
  · rw [if_neg hcase]
    have hpos : 0 < neighbors.length := List.length_pos.mpr hne
    have hlen : ((⌊u * (neighbors.length : ℚ)⌋).toNat) < neighbors.length := by
      have h0 : (0 : ℤ) ≤ ⌊u * (neighbors.length : ℚ)⌋ := by
        apply Int.floor_nonneg.mpr
        positivity
      have hlt : ⌊u * (neighbors.length : ℚ)⌋ < (neighbors.length : ℤ) := by
        apply Int.floor_lt.mpr
        push_cast
        nlinarith [show (0 : ℚ) < (neighbors.length : ℚ) by exact_mod_cast hpos]
      omega
    exact getD_mem neighbors _ hlen

theorem rwGo_empty {g : Graph} {dst it : ℕ} {st : RWState}
    (h : (lookupG g st.current).isEmpty = true) :
    rwGo g dst (it + 1) st = (none, st) := by
  simp only [rwGo]
  rw [if_pos h]

theorem rwGo_shortcut {g : Graph} {dst it : ℕ} {st : RWState}
    (h1 : ¬ (lookupG g st.current).isEmpty = true)
    (h2 : ((lookupG g st.current).contains dst &&
      decide ((rngNext st.rng).1 < 3/10)) = true) :
    rwGo g dst (it + 1) st =
      (some (st.path ++ [dst]), { st with rng := (rngNext st.rng).2 }) := by
  simp only [rwGo]
  rw [if_neg h1, if_pos h2]

theorem rwGo_step {g : Graph} {dst it : ℕ} {st : RWState}
    (h1 : ¬ (lookupG g st.current).isEmpty = true)
    (h2 : ¬ ((lookupG g st.current).contains dst &&
      decide ((rngNext st.rng).1 < 3/10)) = true) :
    rwGo g dst (it + 1) st =
      (let rng0 := if (lookupG g st.current).contains dst
         then (rngNext st.rng).2 else st.rng
       let u := (rngNext rng0).1
       let rng1 := (rngNext rng0).2
       let next := rwPick (lookupG g st.current) st.seen u
       let path' := st.path ++ [next]
       let seen' := setAdd st.seen next
       if next = dst then (some path', ⟨path', next, seen', rng1⟩)
       else rwGo g dst it ⟨path', next, seen', rng1⟩) := by
  simp only [rwGo]
  rw [if_neg h1, if_neg h2]

/-- Invariants of the walk loop: an early return is a full `src → dst` edge
path of at most `|path₀| + iters` nodes; otherwise the final state is a
partial `src → current` path with `current ≠ dst` within the same bound. -/
theorem rwGo_spec (g : Graph) (src dst : ℕ) :
    ∀ (iters : ℕ) (st : RWState),
      PathInv g src st.path → st.path.getLast? = some st.current →
      st.current ≠ dst → ValidRng st.rng →
      (∀ p, (rwGo g dst iters st).1 = some p →
          PathInv g src p ∧ p.getLast? = some dst ∧
          p.length ≤ st.path.length + iters) ∧
      ((rwGo g dst iters st).1 = none →
          PathInv g src (rwGo g dst iters st).2.path ∧
          (rwGo g dst iters st).2.path.getLast? =
            some (rwGo g dst iters st).2.current ∧
          (rwGo g dst iters st).2.current ≠ dst ∧
          (rwGo g dst iters st).2.path.length ≤ st.path.length + iters) := by
  intro iters
  induction iters with
  | zero =>
    intro st hpi hlast hcur hv
    refine ⟨?_, ?_⟩
    · intro p hp
      simp [rwGo] at hp
    · intro _
      exact ⟨hpi, hlast, hcur, by simp [rwGo]⟩
  | succ it ih =>
    intro st hpi hlast hcur hv
    by_cases hemp : (lookupG g st.current).isEmpty = true
    · rw [rwGo_empty hemp]
      exact ⟨by intro p hp; simp at hp,
        fun _ => ⟨hpi, hlast, hcur,
          show st.path.length ≤ st.path.length + (it + 1) by omega⟩⟩
    · have hne : lookupG g st.current ≠ [] := by
        simpa [List.isEmpty_iff] using hemp
      by_cases hsc : ((lookupG g st.current).contains dst &&
          decide ((rngNext st.rng).1 < 3/10)) = true
      · rw [rwGo_shortcut hemp hsc]
        have hdstmem : dst ∈ lookupG g st.current := by
          have := (Bool.and_eq_true _ _).mp hsc
          exact (contains_true_iff _ _).mp this.1
        have hdn : dst ∈ lookupG g (st.path.getLastD 0) := by
          rwa [getLastD_of_getLast? hlast]
        refine ⟨?_, by intro h; simp at h⟩
        intro p hp
        simp only [Option.some.injEq] at hp
        subst hp
        exact ⟨pathInv_concat hpi hdn, by simp, by
          simp only [List.length_append, List.length_singleton]; omega⟩
      · rw [rwGo_step hemp hsc]
        dsimp only
        set rng0 := if (lookupG g st.current).contains dst
          then (rngNext st.rng).2 else st.rng with hrng0
        have hv0 : ValidRng rng0 := by
          rw [hrng0]
          by_cases hct : (lookupG g st.current).contains dst
          · rw [if_pos hct]; exact validRng_tail hv
          · rw [if_neg hct]; exact hv
        obtain ⟨hu0, hu1⟩ := validRng_head hv0
        set u := (rngNext rng0).1
        set next := rwPick (lookupG g st.current) st.seen u with hnext
        have hnmem : next ∈ lookupG g st.current :=
          rwPick_mem _ _ _ hne hu0 hu1
        have hnmem' : next ∈ lookupG g (st.path.getLastD 0) := by
          rwa [getLastD_of_getLast? hlast]
        have hpi' : PathInv g src (st.path ++ [next]) := pathInv_concat hpi hnmem'
        by_cases hnd : next = dst
        · rw [if_pos hnd]
          refine ⟨?_, by intro h; simp at h⟩
          intro p hp
          simp only [Option.some.injEq] at hp
          subst hp
          refine ⟨hpi', by rw [hnd]; simp, ?_⟩
          simp only [List.length_append, List.length_singleton]
          omega
        · rw [if_neg hnd]
          have := ih ⟨st.path ++ [next], next, setAdd st.seen next,
            (rngNext rng0).2⟩ hpi' (by simp) hnd (validRng_tail hv0)
          refine ⟨?_, ?_⟩
          · intro p hp
            obtain ⟨h1, h2, h3⟩ := this.1 p hp
            refine ⟨h1, h2, ?_⟩
            simp only [List.length_append, List.length_singleton] at h3
            omega
          · intro hp
            obtain ⟨h1, h2, h3, h4⟩ := this.2 hp
            refine ⟨h1, h2, h3, ?_⟩
            simp only [List.length_append, List.length_singleton] at h4
            omega

/-- If `head ≠ last` the list has at least two elements. -/
theorem two_le_length_of_head_ne_last {p : List ℕ} {a b : ℕ}
    (hh : p.head? = some a) (hl : p.getLast? = some b) (hab : a ≠ b) :
    2 ≤ p.length := by
  cases p with
  | nil => simp at hh
  | cons x t =>
    cases t with
    | nil =>
      simp only [List.head?_cons, Option.some.injEq] at hh
      simp only [List.getLast?_singleton, Option.some.injEq] at hl
      exact absurd (hh.symm.trans hl) hab
    | cons y u => simp

/-- Any path `randomWalkPath` returns for an adjacent pair runs `src → dst`
along edges with at most `maxLength + 1` nodes. -/
theorem randomWalkPath_spec (g : Graph) (src dst maxLength : ℕ)
    (hml : 1 ≤ maxLength) (hadj : dst ∈ lookupG g src) (hsd : src ≠ dst)
    (rng : Rng) (hv : ValidRng rng) :
    (randomWalkPath g src dst maxLength rng).1.head? = some src ∧
    (randomWalkPath g src dst maxLength rng).1.getLast? = some dst ∧
    chainOk g (randomWalkPath g src dst maxLength rng).1 = true ∧
    (randomWalkPath g src dst maxLength rng).1.length ≤ maxLength + 1 := by
  unfold randomWalkPath
  dsimp only
  have hst : PathInv g src [src] := ⟨by simp, by simp, by simp [chainOk]⟩
  have hspec := rwGo_spec g src dst (maxLength - 1)
    ⟨[src], src, [src], rng⟩ hst (by simp) hsd hv
  cases hres : (rwGo g dst (maxLength - 1) ⟨[src], src, [src], rng⟩).1 with
  | some p =>
    obtain ⟨⟨hne, hh, hc⟩, hlast, hlen⟩ := hspec.1 p hres
    dsimp only
    refine ⟨hh, hlast, hc, ?_⟩
    simp only [List.length_singleton] at hlen
    omega
  | none =>
    obtain ⟨⟨hne, hh, hc⟩, hlast, hcur, hlen⟩ := hspec.2 hres
    dsimp only
    set st' := (rwGo g dst (maxLength - 1) ⟨[src], src, [src], rng⟩).2 with hst'
    simp only [List.length_singleton] at hlen
    cases hfp : shortestPath g st'.current dst (maxLength - st'.path.length) with
    | some fp =>
      obtain ⟨⟨hfne, hfh, hfc⟩, hflast, hflen⟩ :=
        shortestPath_spec g st'.current dst _ fp hfp
      have hf2 : 2 ≤ fp.length := two_le_length_of_head_ne_last hfh hflast hcur
      have htail : fp.tail ≠ [] := by
        cases fp with
        | nil => simp at hfh
        | cons x t =>
          cases t with
          | nil => simp at hf2
          | cons y u => simp
      have hjoin : chainOk g (st'.path ++ fp.tail) = true := by
        cases fp with
        | nil => exact absurd rfl hfne
        | cons x t =>
          simp only [List.head?_cons, Option.some.injEq] at hfh
          refine chainOk_join g st'.path x t ?_ hc ?_
          · rw [hlast, hfh]
          · exact hfc
      refine ⟨?_, ?_, hjoin, ?_⟩
      · rw [head?_append_left _ hne]
        exact hh
      · rw [getLast?_append_right _ htail]
        cases fp with
        | nil => exact absurd rfl hfne
        | cons x t =>
          cases t with
          | nil => simp at hf2
          | cons y u =>
            rw [show (x :: y :: u).tail = y :: u from rfl, ← hflast,
              List.getLast?_cons_cons]
      · have : fp.tail.length = fp.length - 1 := by simp
        simp only [List.length_append, this]
        omega
    | none =>
      refine ⟨by simp, by simp, ?_, by simp; omega⟩
      show chainOk g [src, dst] = true
      simp [chainOk, hadj]

/-- **C2** (refuted at this input): in the triangle `0-1-2, 0-2` with
`Hmax = 1` and sender `0` adjacent to recipient `1`, the rng draws
`0.5, 0.5, 0.9` drive `selectPath` into the near-shortest diverse branch,
which returns the path `[0, 2, 1]` of 3 nodes — more than `Hmax + 1 = 2` —
because the diverse search is capped by `min(shortestLen+1+⌊u·2⌋,
⌊shortestLen·1.5⌋)`, a bound derived from the shortest length, not from
`Hmax`.  This is exactly the path that would be appended to `sentLog`. -/
theorem c2_counterexample :
    (selectPath [(0, [1, 2]), (1, [0, 2]), (2, [0, 1])] 0 1 1 emptyTracker
      [1/2, 1/2, 9/10]).1 = some [0, 2, 1] ∧
    ¬ (([0, 2, 1] : List ℕ).length ≤ 1 + 1) := by
  constructor
  · norm_num [selectPath, shortestPath, spLoop, spNbrs, findDiversePath, fdLoop,
      fdNbrs, lookupG, graphFuel, rngNext, emptyTracker, scorePath, getNodeScore,
      getEdgeScore, consecPairs, rouletteGo, List.find?, List.lookup, List.map_cons,
      List.map_nil, List.sum_cons, List.sum_nil, Option.getD, Function.comp,
      show (3 : ℤ).toNat = 3 from rfl]
  · decide

/-- **C2 amended**: for every send the simulator issues (sender and
recipient adjacent, as recipients are always drawn from the sender's
neighbor list), the logged path is exactly the `selectPath` result, and it
starts at the sender, ends at the recipient and follows edges of the social
graph; but the length bound is **not** `Hmax + 1`: the shortest branch
returns 2 nodes, the two diverse branches are capped by shortest-length
arithmetic at `min(·, ⌊2·1.5⌋) + 2 = 5` nodes, and the random walk by
`⌊2·1.5⌋ + 1 = 4` nodes, so `|path| ≤ 5` independently of `Hmax`. -/
theorem c2_amended_logged_paths (g : Graph) (src dst Hmax : ℕ)
    (tr : PathDiversityTracker) (rng : Rng)
    (hadj : dst ∈ lookupG g src) (hsd : src ≠ dst) (hv : ValidRng rng) :
    ∃ p, (selectPath g src dst Hmax tr rng).1 = some p ∧
      p.head? = some src ∧ p.getLast? = some dst ∧ chainOk g p = true ∧
      p.length ≤ 5 := by
  unfold selectPath
  rw [shortestPath_adjacent g src dst Hmax hsd hadj]
  dsimp only
  have hml : ((⌊(([src, dst].length : ℕ) : ℚ) * (3/2)⌋).toNat) = 3 := by
    norm_num
    decide
  rw [hml]
  have hchain2 : chainOk g [src, dst] = true := by simp [chainOk, hadj]
  by_cases hr1 : (rngNext rng).1 < 2/5
  · rw [if_pos hr1]
    exact ⟨[src, dst], rfl, by simp, by simp, hchain2, by simp⟩
  · rw [if_neg hr1]
    by_cases hr2 : (rngNext rng).1 < 2/5 + 7/20
    · rw [if_pos hr2]
      set cap := min ([src, dst].length + 1 +
        (⌊(rngNext (rngNext rng).2).1 * 2⌋).toNat) 3 with hcap
      have hcap3 : cap ≤ 3 := Nat.min_le_right _ _
      cases hfd : (findDiversePath g src dst cap tr
          (rngNext (rngNext rng).2).2).1 with
      | some p =>
        obtain ⟨⟨hne, hh, hc⟩, hlast, hlen⟩ :=
          findDiversePath_spec g src dst cap tr _ p hfd
        exact ⟨p, rfl, hh, hlast, hc, by omega⟩
      | none =>
        exact ⟨[src, dst], rfl, by simp, by simp, hchain2, by simp⟩
    · rw [if_neg hr2]
      by_cases hr3 : (rngNext rng).1 < 1 - 1/20
      · rw [if_pos hr3]
        cases hfd : (findDiversePath g src dst 3 tr (rngNext rng).2).1 with
        | some p =>
          obtain ⟨⟨hne, hh, hc⟩, hlast, hlen⟩ :=
            findDiversePath_spec g src dst 3 tr _ p hfd
          exact ⟨p, rfl, hh, hlast, hc, by omega⟩
        | none =>
          exact ⟨[src, dst], rfl, by simp, by simp, hchain2, by simp⟩
      · rw [if_neg hr3]
        dsimp only
        obtain ⟨hh, hlast, hc, hlen⟩ := randomWalkPath_spec g src dst 3
          (by norm_num) hadj hsd (rngNext rng).2 (validRng_tail hv)
        exact ⟨_, rfl, hh, hlast, hc, by omega⟩

/-- Witness for `c2_amended_logged_paths`: the edge `0 → 1`, `Hmax = 1`,
rng stream `[0]`. -/
theorem c2_amended_witness :
    ∃ p, (selectPath [(0, [1]), (1, [0])] 0 1 1 emptyTracker [0]).1 = some p ∧
      p.head? = some 0 ∧ p.getLast? = some 1 ∧
      chainOk [(0, [1]), (1, [0])] p = true ∧ p.length ≤ 5 :=
  c2_amended_logged_paths [(0, [1]), (1, [0])] 0 1 1 emptyTracker [0]
    (by norm_num [lookupG, List.find?]) (by norm_num)
    (by intro r hr; rw [List.mem_singleton] at hr; subst hr; norm_num)

/-! ### No-path handling (claims C3, C9) -/

theorem mem_of_getLast? : ∀ {l : List ℕ} {x : ℕ}, l.getLast? = some x → x ∈ l := by
  intro l
  induction l with
  | nil => intro x h; simp at h
  | cons a t ih =>
    intro x h
    cases t with
    | nil =>
      simp only [List.getLast?_singleton, Option.some.injEq] at h
      simp [h]
    | cons b u =>
      rw [List.getLast?_cons_cons] at h
      exact List.mem_cons_of_mem a (ih h)

theorem pickWGo_mem :
    ∀ (l : List (ℕ × ℚ)) (r : ℚ) (last : Option ℕ) (x : ℕ),
      pickWGo l r last = some x → (∃ w, (x, w) ∈ l) ∨ last = some x := by
  intro l
  induction l with
  | nil => intro r last x h; exact Or.inr h
  | cons e rest ih =>
    intro r last x h
    obtain ⟨xe, we⟩ := e
    by_cases hc : r - we ≤ 0
    · rw [pickWGo, if_pos hc] at h
      simp only [Option.some.injEq] at h
      subst h
      exact Or.inl ⟨we, by simp⟩
    · rw [pickWGo, if_neg hc] at h
      rcases ih (r - we) last x h with ⟨w, hw⟩ | h'
      · exact Or.inl ⟨w, by simp [hw]⟩
      · exact Or.inr h'

/-- `pickWeighted` always answers with one of the items. -/
theorem pickWeighted_mem {items : List ℕ} {weights : List ℚ} {u : ℚ} {x : ℕ}
    (h : pickWeighted items weights u = some x) : x ∈ items := by
  cases items with
  | nil => simp [pickWeighted] at h
  | cons a t =>
    rw [pickWeighted] at h
    rcases pickWGo_mem _ _ _ _ h with ⟨w, hw⟩ | hlast
    · exact (List.of_mem_zip hw).1
    · exact mem_of_getLast? hlast

theorem shortestPath_isSome_of_adj (g : Graph) (src dst Hmax : ℕ)
    (hadj : dst ∈ lookupG g src) : (shortestPath g src dst Hmax).isSome := by
  by_cases h : src = dst
  · rw [shortestPath, if_pos h]
    rfl
  · rw [shortestPath_adjacent g src dst Hmax h hadj]
    rfl

/-- `selectPath` returns `null` only when the shortest path is `null`. -/
theorem selectPath_isSome (g : Graph) (src dst Hmax : ℕ)
    (tr : PathDiversityTracker) (rng : Rng)
    (h : (shortestPath g src dst Hmax).isSome) :
    ((selectPath g src dst Hmax tr rng).1).isSome := by
  obtain ⟨sp, hsp⟩ := Option.isSome_iff_exists.mp h
  unfold selectPath
  rw [hsp]
  dsimp only
  by_cases h1 : (rngNext rng).1 < 2/5
  · rw [if_pos h1]
    rfl
  · rw [if_neg h1]
    by_cases h2 : (rngNext rng).1 < 2/5 + 7/20
    · rw [if_pos h2]
      cases (findDiversePath g src dst
          (min (sp.length + 1 + (⌊(rngNext (rngNext rng).2).1 * 2⌋).toNat)
            ((⌊((sp.length : ℕ) : ℚ) * (3/2)⌋).toNat)) tr
          (rngNext (rngNext rng).2).2).1 <;> rfl
    · rw [if_neg h2]
      by_cases h3 : (rngNext rng).1 < 1 - 1/20
      · rw [if_pos h3]
        cases (findDiversePath g src dst
            ((⌊((sp.length : ℕ) : ℚ) * (3/2)⌋).toNat) tr (rngNext rng).2).1 <;> rfl
      · rw [if_neg h3]
        rfl

theorem countReplies_append (l : List MsgRecord) (m : MsgRecord) :
    countReplies (l ++ [m]) = countReplies l + (if m.isReply then 1 else 0) := by
  by_cases h : m.isReply
  · simp [countReplies, List.filter_append, h]
  · simp [countReplies, List.filter_append, h]

/-- One reply-queue entry with an adjacent recipient changes the isReply
count and the accept count by the same amount. -/
theorem processReplyEntry_count (g : Graph) (tm : ℕ → ℕ → Option Tier)
    (Hmax T t uId : ℕ) (e : ReplyEntry) (st : ReplyRunState)
    (hadj : e.toId ∈ lookupG g uId) :
    countReplies (processReplyEntry g tm Hmax T t uId e st).log + st.accepted =
      countReplies st.log + (processReplyEntry g tm Hmax T t uId e st).accepted := by
  unfold processReplyEntry
  dsimp only
  by_cases hsc : (shouldContinue
      ((st.threads.lookup (pairKey uId e.toId)).getD ConversationThread.new)
      (t : ℤ) st.rng).1 = true
  · rw [if_pos hsc]
    have hsome := selectPath_isSome g uId e.toId Hmax st.tracker
      (shouldContinue ((st.threads.lookup (pairKey uId e.toId)).getD
        ConversationThread.new) (t : ℤ) st.rng).2
      (shortestPath_isSome_of_adj g uId e.toId Hmax hadj)
    obtain ⟨p, hp⟩ := Option.isSome_iff_exists.mp hsome
    rw [hp]
    dsimp only
    cases (scheduleReply tm e.toId uId t
        (selectPath g uId e.toId Hmax st.tracker
          (shouldContinue ((st.threads.lookup (pairKey uId e.toId)).getD
            ConversationThread.new) (t : ℤ) st.rng).2).2).1 with
    | some d =>
      dsimp only
      rw [countReplies_append]
      simp only [MsgRecord.isReply, if_true]
      omega
    | none =>
      dsimp only
      rw [countReplies_append]
      simp only [MsgRecord.isReply, if_true]
      omega
  · rw [if_neg hsc]

/-- **C9**: over any processed sequence of reply-queue entries (recipients
are reply targets, hence neighbors of the replier), the number of sentLog
records with `isReply = true` grows exactly with the number of
`ConversationThread.shouldContinue` accepts: starting from any state where
the two counts agree, they agree after the run. -/
theorem c9_isReply_count_equals_accepts (g : Graph) (tm : ℕ → ℕ → Option Tier)
    (Hmax T : ℕ) (entries : List (ℕ × ℕ × ReplyEntry)) (st0 : ReplyRunState)
    (hadj : ∀ e ∈ entries, e.2.2.toId ∈ lookupG g e.2.1)
    (hinv : countReplies st0.log = st0.accepted) :
    countReplies (runReplies g tm Hmax T entries st0).log =
      (runReplies g tm Hmax T entries st0).accepted := by
  induction entries generalizing st0 with
  | nil => simpa [runReplies] using hinv
  | cons e rest ih =>
    obtain ⟨t, uid, entry⟩ := e
    have h1 := processReplyEntry_count g tm Hmax T t uid entry st0
      (hadj (t, uid, entry) (List.mem_cons_self _ _))
    rw [runReplies]
    exact ih _ (fun e' he' => hadj e' (List.mem_cons_of_mem _ he')) (by omega)

/-- Witness for `c9_isReply_count_equals_accepts`: one reply entry
`0 → 1` on the edge graph, starting from the empty state. -/
theorem c9_witness :
    countReplies (runReplies [(0, [1]), (1, [0])] (fun _ _ => none) 1 5
      [(0, 0, ⟨0, 1, 0⟩)] ⟨[], emptyTracker, [0, 0, 0, 0, 0], [], [], [], 0⟩).log =
    (runReplies [(0, [1]), (1, [0])] (fun _ _ => none) 1 5
      [(0, 0, ⟨0, 1, 0⟩)] ⟨[], emptyTracker, [0, 0, 0, 0, 0], [], [], [], 0⟩).accepted :=
  c9_isReply_count_equals_accepts [(0, [1]), (1, [0])] (fun _ _ => none) 1 5
    [(0, 0, ⟨0, 1, 0⟩)] ⟨[], emptyTracker, [0, 0, 0, 0, 0], [], [], [], 0⟩
    (by intro e he; rw [List.mem_singleton] at he; subst he;
        norm_num [lookupG, List.find?])
    (by rfl)

/-- **C3**: (a) in the reply branch, a `null` path is a pure skip — the
`continue` of line 518 leaves the sentLog and the adversary notes exactly as
they were and raises nothing; (b) in the new-send branch — which has **no**
null check — `selectPath` can never return `null`, because the recipient is
drawn by `pickWeighted` from the sender's own neighbor list, so the
unguarded `recordPath(path)` never sees `null` and no exception escapes
either branch. -/
theorem c3_no_path_is_skip :
    (∀ (g : Graph) (tm : ℕ → ℕ → Option Tier) (Hmax T t uId : ℕ)
        (e : ReplyEntry) (st : ReplyRunState),
      (selectPath g uId e.toId Hmax st.tracker
        (shouldContinue ((st.threads.lookup (pairKey uId e.toId)).getD
          ConversationThread.new) (t : ℤ) st.rng).2).1 = none →
      (processReplyEntry g tm Hmax T t uId e st).log = st.log ∧
      (processReplyEntry g tm Hmax T t uId e st).notes = st.notes) ∧
    (∀ (g : Graph) (tm : ℕ → ℕ → Option Tier) (tw : Tier → ℚ)
        (Hmax T t uId : ℕ) (u : ℚ) (tr : PathDiversityTracker) (rng : Rng),
      (newSendStep g tm tw Hmax T t uId u tr rng).isSome) := by
  constructor
  · intro g tm Hmax T t uId e st hnone
    unfold processReplyEntry
    dsimp only
    by_cases hsc : (shouldContinue
        ((st.threads.lookup (pairKey uId e.toId)).getD ConversationThread.new)
        (t : ℤ) st.rng).1 = true
    · rw [if_pos hsc, hnone]
      exact ⟨rfl, rfl⟩
    · rw [if_neg hsc]
      exact ⟨rfl, rfl⟩
  · intro g tm tw Hmax T t uId u tr rng
    unfold newSendStep
    dsimp only
    by_cases hemp : (lookupG g uId).isEmpty = true
    · rw [if_pos hemp]
      rfl
    · rw [if_neg hemp]
      cases hpick : pickWeighted (lookupG g uId)
          ((lookupG g uId).map (fun nId => tw ((tm uId nId).getD Tier.acquaintance)))
          u with
      | none => rfl
      | some recipientId =>
        have hadj : recipientId ∈ lookupG g uId := pickWeighted_mem hpick
        have hsome := selectPath_isSome g uId recipientId Hmax tr rng
          (shortestPath_isSome_of_adj g uId recipientId Hmax hadj)
        obtain ⟨p, hp⟩ := Option.isSome_iff_exists.mp hsome
        dsimp only
        rw [hp]
        dsimp only
        cases (scheduleReply tm recipientId uId t
            (selectPath g uId recipientId Hmax tr rng).2).1 <;> rfl

/-! ### Graph-builder state lemmas (claims C8, C10) -/

theorem getD_set_eq_ite {α : Type} (l : List α) (u x : ℕ) (a d : α) :
    (l.set u a).getD x d = if x = u ∧ u < l.length then a else l.getD x d := by
  induction l generalizing u x with
  | nil => simp
  | cons b t ih =>
    cases u with
    | zero =>
      cases x with
      | zero => simp
      | succ jx => simp
    | succ ju =>
      cases x with
      | zero => simp
      | succ jx =>
        simp only [List.set_cons_succ, List.getD_cons_succ, ih ju jx,
          List.length_cons]
        by_cases h : jx = ju ∧ ju < t.length
        · rw [if_pos h, if_pos ⟨by omega, by omega⟩]
        · rw [if_neg h, if_neg (by omega)]

theorem lookup_assocSet_self {κ ν : Type} [DecidableEq κ] [BEq κ] [LawfulBEq κ] :
    ∀ (l : List (κ × ν)) (k : κ) (v : ν), (assocSet l k v).lookup k = some v := by
  intro l k v
  induction l with
  | nil => simp [assocSet, List.lookup]
  | cons e rest ih =>
    obtain ⟨k', v'⟩ := e
    by_cases h : k' = k
    · subst h
      simp [assocSet, List.lookup]
    · rw [assocSet, if_neg h, List.lookup]
      have hb : (k == k') = false := by
        simpa using fun hh => h hh.symm
      rw [hb]
      exact ih

theorem lookup_assocSet_ne {κ ν : Type} [DecidableEq κ] [BEq κ] [LawfulBEq κ] :
    ∀ (l : List (κ × ν)) (k k' : κ) (v : ν), k' ≠ k →
      (assocSet l k v).lookup k' = l.lookup k' := by
  intro l k k' v hne
  have hb : (k' == k) = false := by simpa using hne
  induction l with
  | nil => simp [assocSet, List.lookup, hb]
  | cons e rest ih =>
    obtain ⟨ke, ve⟩ := e
    by_cases h : ke = k
    · subst h
      rw [assocSet, if_pos rfl, List.lookup, List.lookup, hb]
    · rw [assocSet, if_neg h, List.lookup, List.lookup]
      cases hke : (k' == ke) with
      | true => rfl
      | false => exact ih

theorem tierAt_addAdj (g : GB) (u v x y : ℕ) :
    tierAt (addAdj g u v) x y = tierAt g x y := by
  unfold addAdj
  by_cases h : (adjAt g u).contains v
  · rw [if_pos h]
  · rw [if_neg h]
    rfl

theorem adjAt_setTier (g : GB) (u v : ℕ) (tr : Tier) (x : ℕ) :
    adjAt (setTier g u v tr) x = adjAt g x := rfl

theorem adjAt_addAdj (g : GB) (u v x : ℕ) :
    adjAt (addAdj g u v) x =
      if x = u ∧ u < g.adj.length ∧ ¬ (adjAt g u).contains v = true
      then adjAt g u ++ [v] else adjAt g x := by
  unfold addAdj
  by_cases hc : (adjAt g u).contains v = true
  · rw [if_pos hc, if_neg (by tauto)]
  · rw [if_neg hc]
    show (g.adj.set u (adjAt g u ++ [v])).getD x [] = _
    rw [getD_set_eq_ite]
    by_cases h : x = u ∧ u < g.adj.length
    · rw [if_pos h, if_pos ⟨h.1, h.2, hc⟩]
    · rw [if_neg h, if_neg (by tauto)]
      rfl

theorem mem_adjAt_addAdj_of_mem {g : GB} {x y : ℕ} (u v : ℕ)
    (h : y ∈ adjAt g x) : y ∈ adjAt (addAdj g u v) x := by
  rw [adjAt_addAdj]
  by_cases hc : x = u ∧ u < g.adj.length ∧ ¬ (adjAt g u).contains v = true
  · rw [if_pos hc]
    rcases hc with ⟨hx, _, _⟩
    subst hx
    exact List.mem_append_left _ h
  · rwa [if_neg hc]

theorem mem_adjAt_addAdj_elim {g : GB} {u v x y : ℕ}
    (h : y ∈ adjAt (addAdj g u v) x) :
    y ∈ adjAt g x ∨ (x = u ∧ y = v) := by
  rw [adjAt_addAdj] at h
  by_cases hc : x = u ∧ u < g.adj.length ∧ ¬ (adjAt g u).contains v = true
  · rw [if_pos hc] at h
    rcases List.mem_append.mp h with h' | h'
    · left
      rw [hc.1]
      exact h'
    · right
      exact ⟨hc.1, by simpa using h'⟩
  · rw [if_neg hc] at h
    exact Or.inl h

theorem mem_adjAt_addAdj_self {g : GB} {u v : ℕ} (h : u < g.adj.length) :
    v ∈ adjAt (addAdj g u v) u := by
  rw [adjAt_addAdj]
  by_cases hc : (adjAt g u).contains v = true
  · rw [if_neg (by tauto)]
    exact (contains_true_iff _ _).mp hc
  · rw [if_pos ⟨rfl, h, hc⟩]
    simp

theorem adjAt_addAdj_ne {g : GB} {u x : ℕ} (v : ℕ) (h : x ≠ u) :
    adjAt (addAdj g u v) x = adjAt g x := by
  rw [adjAt_addAdj, if_neg (by tauto)]

theorem tierAt_setTier (g : GB) (u v : ℕ) (tr : Tier) (x y : ℕ) :
    tierAt (setTier g u v tr) x y =
      if x = u ∧ u < g.tier.length then (assocSet (g.tier.getD u []) v tr).lookup y
      else tierAt g x y := by
  unfold setTier tierAt
  dsimp only
  rw [getD_set_eq_ite]
  by_cases h : x = u ∧ u < g.tier.length
  · rw [if_pos h, if_pos h]
  · rw [if_neg h, if_neg h]

theorem tierAt_setTier_self {g : GB} {u : ℕ} (v : ℕ) (tr : Tier)
    (h : u < g.tier.length) : tierAt (setTier g u v tr) u v = some tr := by
  rw [tierAt_setTier, if_pos ⟨rfl, h⟩, lookup_assocSet_self]

theorem tierAt_setTier_ne {g : GB} {u v x y : ℕ} (tr : Tier)
    (h : ¬ (x = u ∧ y = v)) : tierAt (setTier g u v tr) x y = tierAt g x y := by
  rw [tierAt_setTier]
  by_cases hx : x = u ∧ u < g.tier.length
  · rw [if_pos hx]
    have hy : y ≠ v := fun hv => h ⟨hx.1, hv⟩
    rw [lookup_assocSet_ne _ _ _ _ hy]
    unfold tierAt
    rw [hx.1]
  · rw [if_neg hx]

theorem adj_length_addAdj (g : GB) (u v : ℕ) :
    (addAdj g u v).adj.length = g.adj.length := by
  unfold addAdj
  by_cases h : (adjAt g u).contains v
  · rw [if_pos h]
  · rw [if_neg h]
    simp

theorem tier_length_addAdj (g : GB) (u v : ℕ) :
    (addAdj g u v).tier.length = g.tier.length := by
  unfold addAdj
  by_cases h : (adjAt g u).contains v
  · rw [if_pos h]
  · rw [if_neg h]

theorem adj_length_setTier (g : GB) (u v : ℕ) (tr : Tier) :
    (setTier g u v tr).adj.length = g.adj.length := rfl

theorem tier_length_setTier (g : GB) (u v : ℕ) (tr : Tier) :
    (setTier g u v tr).tier.length = g.tier.length := by
  unfold setTier
  simp

/-- Structural invariants of the builder state: correct table sizes, no
self-loops, ids in range, a tier entry exactly for every directed edge, and
duplicate-free adjacency. -/
structure GInv (n : ℕ) (g : GB) : Prop where
  adjLen : g.adj.length = n
  tierLen : g.tier.length = n
  noSelf : ∀ u, u ∉ adjAt g u
  inRange : ∀ u v, v ∈ adjAt g u → u < n ∧ v < n
  tierEdge : ∀ u v, (tierAt g u v).isSome = true ↔ v ∈ adjAt g u
  nodupAdj : ∀ u, (adjAt g u).Nodup

/-- A fully symmetric edge with reconciled equal tiers. -/
def Sym2P (g : GB) (x y : ℕ) : Prop :=
  y ∈ adjAt g x ∧ x ∈ adjAt g y ∧
  ∃ tr, tierAt g x y = some tr ∧ tierAt g y x = some tr

theorem Sym2P.symm {g : GB} {x y : ℕ} (h : Sym2P g x y) : Sym2P g y x := by
  obtain ⟨a, b, t, h1, h2⟩ := h
  exact ⟨b, a, t, h2, h1⟩

theorem stronger_self (t : Tier) : stronger t t = t := by
  unfold stronger
  rw [if_pos (le_refl _)]

theorem nodup_addAdj {g : GB} (u v : ℕ) (h : ∀ x, (adjAt g x).Nodup) :
    ∀ x, (adjAt (addAdj g u v) x).Nodup := by
  intro x
  rw [adjAt_addAdj]
  by_cases hc : x = u ∧ u < g.adj.length ∧ ¬ (adjAt g u).contains v = true
  · rw [if_pos hc]
    rw [List.nodup_append]
    refine ⟨h u, List.nodup_singleton v, ?_⟩
    intro a ha hmem
    rw [List.mem_singleton] at hmem
    subst hmem
    exact hc.2.2 ((contains_true_iff _ _).mpr ha)
  · rw [if_neg hc]
    exact h x

theorem symStep_eq (u v : ℕ) (st : GB) (tUV : Tier)
    (htuv : tierAt st u v = some tUV) :
    symStep u st v =
      match tierAt st v u with
      | some tVU => setTier (setTier (addAdj st v u) u v (stronger tUV tVU))
          v u (stronger tUV tVU)
      | none => setTier (addAdj st v u) v u tUV := by
  unfold symStep
  simp only [tierAt_addAdj]
  rw [htuv]
  cases tierAt st v u <;> rfl

/-- Everything `symStep` guarantees: invariants, monotone adjacency, `Sym2P`
preservation and establishment for the processed edge, a delta description
of the new edges, and that `adj(u)` itself is untouched. -/
theorem symStep_spec {n : ℕ} {st : GB} (u v : ℕ) (inv : GInv n st)
    (hv : v ∈ adjAt st u) :
    GInv n (symStep u st v) ∧
    (∀ x y, y ∈ adjAt st x → y ∈ adjAt (symStep u st v) x) ∧
    (∀ x y, Sym2P st x y → Sym2P (symStep u st v) x y) ∧
    Sym2P (symStep u st v) u v ∧
    (∀ x y, y ∈ adjAt (symStep u st v) x →
      y ∈ adjAt st x ∨ Sym2P (symStep u st v) x y) ∧
    adjAt (symStep u st v) u = adjAt st u := by
  have hvu : v ≠ u := fun h => inv.noSelf u (h ▸ hv)
  obtain ⟨hun, hvn⟩ := inv.inRange u v hv
  have hvlen : v < st.adj.length := by rw [inv.adjLen]; exact hvn
  have hvtlen : v < st.tier.length := by rw [inv.tierLen]; exact hvn
  have hutlen : u < st.tier.length := by rw [inv.tierLen]; exact hun
  obtain ⟨tUV, htuv⟩ := Option.isSome_iff_exists.mp ((inv.tierEdge u v).mpr hv)
  rw [symStep_eq u v st tUV htuv]
  -- facts about st1 := addAdj st v u
  have hadj1 : ∀ x, x ≠ v → adjAt (addAdj st v u) x = adjAt st x :=
    fun x hx => adjAt_addAdj_ne u hx
  have hmem1 : u ∈ adjAt (addAdj st v u) v := mem_adjAt_addAdj_self hvlen
  have hmono1 : ∀ x y, y ∈ adjAt st x → y ∈ adjAt (addAdj st v u) x :=
    fun x y h => mem_adjAt_addAdj_of_mem v u h
  have helim1 : ∀ x y, y ∈ adjAt (addAdj st v u) x →
      y ∈ adjAt st x ∨ (x = v ∧ y = u) :=
    fun x y h => mem_adjAt_addAdj_elim h
  cases htv : tierAt st v u with
  | some tVU =>
    dsimp only
    set s := stronger tUV tVU with hs
    set st' := setTier (setTier (addAdj st v u) u v s) v u s with hst'
    have hadj' : ∀ x, adjAt st' x = adjAt (addAdj st v u) x := fun x => rfl
    have htlen1 : u < (addAdj st v u).tier.length := by
      rw [tier_length_addAdj]; exact hutlen
    have htlen2 : v < (setTier (addAdj st v u) u v s).tier.length := by
      rw [tier_length_setTier, tier_length_addAdj]; exact hvtlen
    have htier'_uv : tierAt st' u v = some s := by
      rw [hst', tierAt_setTier_ne s (by tauto),
        tierAt_setTier_self v s htlen1]
    have htier'_vu : tierAt st' v u = some s := tierAt_setTier_self u s htlen2
    have htier'_other : ∀ x y, ¬ (x = u ∧ y = v) → ¬ (x = v ∧ y = u) →
        tierAt st' x y = tierAt st x y := by
      intro x y h1 h2
      rw [hst', tierAt_setTier_ne s h2, tierAt_setTier_ne s h1, tierAt_addAdj]
    have hmono : ∀ x y, y ∈ adjAt st x → y ∈ adjAt st' x := by
      intro x y h
      rw [hadj']
      exact hmono1 x y h
    have hsym2uv : Sym2P st' u v := by
      refine ⟨by rw [hadj']; exact hmono1 u v hv, by rw [hadj']; exact hmem1,
        s, htier'_uv, htier'_vu⟩
    refine ⟨?_, hmono, ?_, hsym2uv, ?_, ?_⟩
    · refine ⟨?_, ?_, ?_, ?_, ?_, ?_⟩
      · rw [hst']
        show (setTier (setTier (addAdj st v u) u v s) v u s).adj.length = n
        rw [adj_length_setTier, adj_length_setTier, adj_length_addAdj, inv.adjLen]
      · rw [hst']
        rw [tier_length_setTier, tier_length_setTier, tier_length_addAdj,
          inv.tierLen]
      · intro x hx
        rw [hadj'] at hx
        rcases helim1 x x hx with h | ⟨h1, h2⟩
        · exact inv.noSelf x h
        · exact hvu (h1.symm.trans h2)
      · intro x y hx
        rw [hadj'] at hx
        rcases helim1 x y hx with h | ⟨h1, h2⟩
        · exact inv.inRange x y h
        · subst h1; subst h2; exact ⟨hvn, hun⟩
      · intro x y
        by_cases h1 : x = u ∧ y = v
        · obtain ⟨hx, hy⟩ := h1; subst hx; subst hy
          rw [htier'_uv]
          simp only [Option.isSome_some, true_iff]
          rw [hadj']
          exact hmono1 _ _ hv
        · by_cases h2 : x = v ∧ y = u
          · obtain ⟨hx, hy⟩ := h2; subst hx; subst hy
            rw [htier'_vu]
            simp only [Option.isSome_some, true_iff]
            rw [hadj']
            exact hmem1
          · rw [htier'_other x y h1 h2, hadj']
            constructor
            · intro h
              exact hmono1 x y ((inv.tierEdge x y).mp h)
            · intro h
              rcases helim1 x y h with h' | h'
              · exact (inv.tierEdge x y).mpr h'
              · exact absurd h' h2
      · intro x
        rw [hadj']
        exact nodup_addAdj v u inv.nodupAdj x
    · intro x y hxy
      obtain ⟨ha, hb, t, ht1, ht2⟩ := hxy
      by_cases h1 : (x = u ∧ y = v) ∨ (x = v ∧ y = u)
      · have htt : tUV = t ∧ tVU = t := by
          rcases h1 with ⟨hx, hy⟩ | ⟨hx, hy⟩
          · subst hx; subst hy
            exact ⟨by rw [htuv] at ht1; exact Option.some_inj.mp ht1,
              by rw [htv] at ht2; exact Option.some_inj.mp ht2⟩
          · subst hx; subst hy
            exact ⟨by rw [htuv] at ht2; exact Option.some_inj.mp ht2,
              by rw [htv] at ht1; exact Option.some_inj.mp ht1⟩
        have hss : s = t := by rw [hs, htt.1, htt.2, stronger_self]
        rcases h1 with ⟨hx, hy⟩ | ⟨hx, hy⟩
        · subst hx; subst hy
          exact ⟨hmono _ _ ha, hmono _ _ hb, s, htier'_uv, htier'_vu⟩
        · subst hx; subst hy
          exact ⟨hmono _ _ ha, hmono _ _ hb, s, htier'_vu, htier'_uv⟩
      · push_neg at h1
        have hxy1 : ¬ (x = u ∧ y = v) := by tauto
        have hxy2 : ¬ (x = v ∧ y = u) := by tauto
        have hyx1 : ¬ (y = u ∧ x = v) := by tauto
        have hyx2 : ¬ (y = v ∧ x = u) := by tauto
        exact ⟨hmono _ _ ha, hmono _ _ hb, t,
          by rw [htier'_other x y hxy1 hxy2]; exact ht1,
          by rw [htier'_other y x hyx1 hyx2]; exact ht2⟩
    · intro x y hxy
      rw [hadj'] at hxy
      rcases helim1 x y hxy with h | ⟨h1, h2⟩
      · exact Or.inl h
      · subst h1; subst h2
        exact Or.inr hsym2uv.symm
    · rw [hadj']
      exact hadj1 u hvu.symm
  | none =>
    dsimp only
    set st' := setTier (addAdj st v u) v u tUV with hst'
    have hadj' : ∀ x, adjAt st' x = adjAt (addAdj st v u) x := fun x => rfl
    have htlen2 : v < (addAdj st v u).tier.length := by
      rw [tier_length_addAdj]; exact hvtlen
    have htier'_vu : tierAt st' v u = some tUV := tierAt_setTier_self u tUV htlen2
    have htier'_other : ∀ x y, ¬ (x = v ∧ y = u) → tierAt st' x y = tierAt st x y := by
      intro x y h2
      rw [hst', tierAt_setTier_ne tUV h2, tierAt_addAdj]
    have htier'_uv : tierAt st' u v = some tUV := by
      rw [htier'_other u v (by tauto)]
      exact htuv
    have hmono : ∀ x y, y ∈ adjAt st x → y ∈ adjAt st' x := by
      intro x y h
      rw [hadj']
      exact hmono1 x y h
    have hsym2uv : Sym2P st' u v := by
      exact ⟨by rw [hadj']; exact hmono1 u v hv, by rw [hadj']; exact hmem1,
        tUV, htier'_uv, htier'_vu⟩
    refine ⟨?_, hmono, ?_, hsym2uv, ?_, ?_⟩
    · refine ⟨?_, ?_, ?_, ?_, ?_, ?_⟩
      · rw [hst', adj_length_setTier, adj_length_addAdj, inv.adjLen]
      · rw [hst', tier_length_setTier, tier_length_addAdj, inv.tierLen]
      · intro x hx
        rw [hadj'] at hx
        rcases helim1 x x hx with h | ⟨h1, h2⟩
        · exact inv.noSelf x h
        · exact hvu (h1.symm.trans h2)
      · intro x y hx
        rw [hadj'] at hx
        rcases helim1 x y hx with h | ⟨h1, h2⟩
        · exact inv.inRange x y h
        · subst h1; subst h2; exact ⟨hvn, hun⟩
      · intro x y
        by_cases h2 : x = v ∧ y = u
        · obtain ⟨hx, hy⟩ := h2; subst hx; subst hy
          rw [htier'_vu]
          simp only [Option.isSome_some, true_iff]
          rw [hadj']
          exact hmem1
        · rw [htier'_other x y h2, hadj']
          constructor
          · intro h
            exact hmono1 x y ((inv.tierEdge x y).mp h)
          · intro h
            rcases helim1 x y h with h' | h'
            · exact (inv.tierEdge x y).mpr h'
            · exact absurd h' h2
      · intro x
        rw [hadj']
        exact nodup_addAdj v u inv.nodupAdj x
    · intro x y hxy
      obtain ⟨ha, hb, t, ht1, ht2⟩ := hxy
      have hne2 : ¬ ((x = v ∧ y = u) ∨ (y = v ∧ x = u)) := by
        rintro (⟨hx, hy⟩ | ⟨hy, hx⟩)
        · subst hx; subst hy
          rw [htv] at ht1
          exact Option.noConfusion ht1
        · subst hx; subst hy
          rw [htv] at ht2
          exact Option.noConfusion ht2
      exact ⟨hmono _ _ ha, hmono _ _ hb, t,
        by rw [htier'_other x y (by tauto)]; exact ht1,
        by rw [htier'_other y x (by tauto)]; exact ht2⟩
    · intro x y hxy
      rw [hadj'] at hxy
      rcases helim1 x y hxy with h | ⟨h1, h2⟩
      · exact Or.inl h
      · subst h1; subst h2
        exact Or.inr hsym2uv.symm
    · rw [hadj']
      exact hadj1 u hvu.symm

/-- The inner fold of the symmetry pass over a list of neighbors of `u`. -/
theorem symFold_spec {n : ℕ} (u : ℕ) :
    ∀ (L : List ℕ) (st : GB), GInv n st → (∀ v ∈ L, v ∈ adjAt st u) →
      GInv n (L.foldl (symStep u) st) ∧
      (∀ x y, y ∈ adjAt st x → y ∈ adjAt (L.foldl (symStep u) st) x) ∧
      (∀ x y, Sym2P st x y → Sym2P (L.foldl (symStep u) st) x y) ∧
      (∀ v ∈ L, Sym2P (L.foldl (symStep u) st) u v) ∧
      (∀ x y, y ∈ adjAt (L.foldl (symStep u) st) x →
        y ∈ adjAt st x ∨ Sym2P (L.foldl (symStep u) st) x y) ∧
      adjAt (L.foldl (symStep u) st) u = adjAt st u := by
  intro L
  induction L with
  | nil =>
    intro st inv hL
    exact ⟨inv, fun _ _ h => h, fun _ _ h => h, by simp,
      fun _ _ h => Or.inl h, rfl⟩
  | cons v L ih =>
    intro st inv hL
    have hv : v ∈ adjAt st u := hL v (by simp)
    obtain ⟨inv1, mono1, pres1, sym1, delta1, hadju1⟩ := symStep_spec u v inv hv
    have hL' : ∀ w ∈ L, w ∈ adjAt (symStep u st v) u := by
      intro w hw
      rw [hadju1]
      exact hL w (List.mem_cons_of_mem _ hw)
    obtain ⟨inv2, mono2, pres2, sym2, delta2, hadju2⟩ :=
      ih (symStep u st v) inv1 hL'
    simp only [List.foldl_cons]
    refine ⟨inv2, ?_, ?_, ?_, ?_, hadju2.trans hadju1⟩
    · exact fun x y h => mono2 x y (mono1 x y h)
    · exact fun x y h => pres2 x y (pres1 x y h)
    · intro w hw
      rcases List.mem_cons.mp hw with h | h
      · subst h
        exact pres2 u w sym1
      · exact sym2 w h
    · intro x y h
      rcases delta2 x y h with h' | h'
      · rcases delta1 x y h' with h'' | h''
        · exact Or.inl h''
        · exact Or.inr (pres2 x y h'')
      · exact Or.inr h'

/-- The symmetry pass over a user list: afterwards every edge whose source
was processed (or which was created by the pass) is fully symmetric. -/
theorem symmetrizeFold_spec {n : ℕ} :
    ∀ (us : List ℕ) (st : GB), GInv n st →
      (∀ x y, y ∈ adjAt st x → Sym2P st x y ∨ x ∈ us) →
      GInv n (us.foldl symUser st) ∧
      (∀ x y, y ∈ adjAt (us.foldl symUser st) x →
        Sym2P (us.foldl symUser st) x y) ∧
      (∀ x y, y ∈ adjAt st x → y ∈ adjAt (us.foldl symUser st) x) := by
  intro us
  induction us with
  | nil =>
    intro st inv hJ
    refine ⟨inv, ?_, fun _ _ h => h⟩
    intro x y h
    rcases hJ x y h with h' | h'
    · exact h'
    · simp at h'
  | cons u us ih =>
    intro st inv hJ
    obtain ⟨inv1, mono1, pres1, sym1, delta1, hadju1⟩ :=
      symFold_spec u (adjAt st u) st inv (fun v hv => hv)
    have hJ' : ∀ x y, y ∈ adjAt (symUser st u) x →
        Sym2P (symUser st u) x y ∨ x ∈ us := by
      intro x y h
      rcases delta1 x y h with h' | h'
      · rcases hJ x y h' with h'' | h''
        · exact Or.inl (pres1 x y h'')
        · rcases List.mem_cons.mp h'' with hx | hx
          · subst hx
            exact Or.inl (sym1 y h')
          · exact Or.inr hx
      · exact Or.inl h'
    obtain ⟨inv2, symAll2, mono2⟩ := ih (symUser st u) inv1 hJ'
    simp only [List.foldl_cons]
    exact ⟨inv2, symAll2, fun x y h => mono2 x y (mono1 x y h)⟩

/-- All edges are symmetric with equal tiers after `symmetrize`. -/
theorem symmetrize_spec {n : ℕ} (st : GB) (inv : GInv n st) :
    GInv n (symmetrize n st) ∧
    (∀ x y, y ∈ adjAt (symmetrize n st) x → Sym2P (symmetrize n st) x y) ∧
    (∀ x y, y ∈ adjAt st x → y ∈ adjAt (symmetrize n st) x) := by
  refine symmetrizeFold_spec (List.range n) st inv ?_
  intro x y h
  exact Or.inr (List.mem_range.mpr (inv.inRange x y h).1)

/-- All present edges are symmetric with a shared tier. -/
def SymAll (g : GB) : Prop := ∀ x y, y ∈ adjAt g x → Sym2P g x y

theorem addAdj_of_mem {g : GB} {u v : ℕ} (h : v ∈ adjAt g u) :
    addAdj g u v = g := by
  unfold addAdj
  rw [if_pos ((contains_true_iff _ _).mpr h)]

/-- A bridge pair keeps the invariants and full symmetry. -/
theorem bridgeAdd_spec {n : ℕ} {st : GB} (u v : ℕ) (inv : GInv n st)
    (hsym : SymAll st) (hu : u < n) (hv : v < n) (huv : u ≠ v) :
    GInv n (bridgeAdd st u v) ∧ SymAll (bridgeAdd st u v) ∧
    (∀ x y, y ∈ adjAt st x → y ∈ adjAt (bridgeAdd st u v) x) := by
  by_cases hmem : v ∈ adjAt st u
  · -- the pair is already connected: every step is a no-op
    have hsym2 := hsym u v hmem
    obtain ⟨_, hmem', t, ht1, ht2⟩ := hsym2
    have heq : bridgeAdd st u v = st := by
      unfold bridgeAdd
      rw [addAdj_of_mem hmem, addAdj_of_mem hmem']
      dsimp only
      simp only [ht1, ht2, Option.isSome_some, if_true]
    rw [heq]
    exact ⟨inv, hsym, fun _ _ h => h⟩
  · have hmem' : u ∉ adjAt st v := fun h => hmem (hsym v u h).2.1
    have ht_uv : tierAt st u v = none := by
      cases ht : tierAt st u v with
      | none => rfl
      | some t =>
        exact absurd ((inv.tierEdge u v).mp (by rw [ht]; rfl)) hmem
    have ht_vu : tierAt st v u = none := by
      cases ht : tierAt st v u with
      | none => rfl
      | some t =>
        exact absurd ((inv.tierEdge v u).mp (by rw [ht]; rfl)) hmem'
    have hulen : u < st.adj.length := by rw [inv.adjLen]; exact hu
    have hvlen : v < (addAdj st u v).adj.length := by
      rw [adj_length_addAdj, inv.adjLen]; exact hv
    -- st1 := addAdj (addAdj st u v) v u
    have hm1 : v ∈ adjAt (addAdj (addAdj st u v) v u) u :=
      mem_adjAt_addAdj_of_mem v u (mem_adjAt_addAdj_self hulen)
    have hm2 : u ∈ adjAt (addAdj (addAdj st u v) v u) v :=
      mem_adjAt_addAdj_self hvlen
    have hmono1 : ∀ x y, y ∈ adjAt st x →
        y ∈ adjAt (addAdj (addAdj st u v) v u) x :=
      fun x y h => mem_adjAt_addAdj_of_mem v u (mem_adjAt_addAdj_of_mem u v h)
    have helim1 : ∀ x y, y ∈ adjAt (addAdj (addAdj st u v) v u) x →
        y ∈ adjAt st x ∨ (x = u ∧ y = v) ∨ (x = v ∧ y = u) := by
      intro x y h
      rcases mem_adjAt_addAdj_elim h with h' | h'
      · rcases mem_adjAt_addAdj_elim h' with h'' | h''
        · exact Or.inl h''
        · exact Or.inr (Or.inl h'')
      · exact Or.inr (Or.inr h')
    have ht1_uv : tierAt (addAdj (addAdj st u v) v u) u v = none := by
      rw [tierAt_addAdj, tierAt_addAdj]; exact ht_uv
    have ht1_vu : tierAt (addAdj (addAdj st u v) v u) v u = none := by
      rw [tierAt_addAdj, tierAt_addAdj]; exact ht_vu
    have hutlen : u < (addAdj (addAdj st u v) v u).tier.length := by
      rw [tier_length_addAdj, tier_length_addAdj, inv.tierLen]; exact hu
    have heq : bridgeAdd st u v =
        setTier (setTier (addAdj (addAdj st u v) v u) u v Tier.acquaintance)
          v u Tier.acquaintance := by
      unfold bridgeAdd
      dsimp only
      rw [ht1_uv]
      simp only [Option.isSome_none, Bool.false_eq_true, if_false]
      rw [tierAt_setTier_ne _ (by tauto), ht1_vu]
      simp only [Option.isSome_none, Bool.false_eq_true, if_false]
    rw [heq]
    set st3 := setTier (setTier (addAdj (addAdj st u v) v u) u v Tier.acquaintance)
      v u Tier.acquaintance with hst3
    have hadj3 : ∀ x, adjAt st3 x = adjAt (addAdj (addAdj st u v) v u) x :=
      fun x => rfl
    have hvtlen3 : v < (setTier (addAdj (addAdj st u v) v u) u v
        Tier.acquaintance).tier.length := by
      rw [tier_length_setTier, tier_length_addAdj, tier_length_addAdj,
        inv.tierLen]
      exact hv
    have ht3_uv : tierAt st3 u v = some Tier.acquaintance := by
      rw [hst3, tierAt_setTier_ne _ (by tauto)]
      exact tierAt_setTier_self v Tier.acquaintance hutlen
    have ht3_vu : tierAt st3 v u = some Tier.acquaintance :=
      tierAt_setTier_self u Tier.acquaintance hvtlen3
    have ht3_other : ∀ x y, ¬ (x = u ∧ y = v) → ¬ (x = v ∧ y = u) →
        tierAt st3 x y = tierAt st x y := by
      intro x y h1 h2
      rw [hst3, tierAt_setTier_ne _ h2, tierAt_setTier_ne _ h1,
        tierAt_addAdj, tierAt_addAdj]
    have hsym3 : Sym2P st3 u v :=
      ⟨by rw [hadj3]; exact hm1, by rw [hadj3]; exact hm2,
        Tier.acquaintance, ht3_uv, ht3_vu⟩
    refine ⟨⟨?_, ?_, ?_, ?_, ?_, ?_⟩, ?_, ?_⟩
    · rw [hst3, adj_length_setTier, adj_length_setTier, adj_length_addAdj,
        adj_length_addAdj, inv.adjLen]
    · rw [hst3, tier_length_setTier, tier_length_setTier, tier_length_addAdj,
        tier_length_addAdj, inv.tierLen]
    · intro x hx
      rw [hadj3] at hx
      rcases helim1 x x hx with h | ⟨h1, h2⟩ | ⟨h1, h2⟩
      · exact inv.noSelf x h
      · exact huv (h1.symm.trans h2)
      · exact huv (h2.symm.trans h1)
    · intro x y hx
      rw [hadj3] at hx
      rcases helim1 x y hx with h | ⟨h1, h2⟩ | ⟨h1, h2⟩
      · exact inv.inRange x y h
      · subst h1; subst h2; exact ⟨hu, hv⟩
      · subst h1; subst h2; exact ⟨hv, hu⟩
    · intro x y
      by_cases h1 : x = u ∧ y = v
      · obtain ⟨hx, hy⟩ := h1; subst hx; subst hy
        rw [ht3_uv]
        simp only [Option.isSome_some, true_iff]
        rw [hadj3]
        exact hm1
      · by_cases h2 : x = v ∧ y = u
        · obtain ⟨hx, hy⟩ := h2; subst hx; subst hy
          rw [ht3_vu]
          simp only [Option.isSome_some, true_iff]
          rw [hadj3]
          exact hm2
        · rw [ht3_other x y h1 h2, hadj3]
          constructor
          · intro h
            exact hmono1 x y ((inv.tierEdge x y).mp h)
          · intro h
            rcases helim1 x y h with h' | h' | h'
            · exact (inv.tierEdge x y).mpr h'
            · exact absurd h' h1
            · exact absurd h' h2
    · intro x
      rw [hadj3]
      exact nodup_addAdj v u (nodup_addAdj u v inv.nodupAdj) x
    · intro x y hx
      rw [hadj3] at hx
      rcases helim1 x y hx with h | ⟨h1, h2⟩ | ⟨h1, h2⟩
      · obtain ⟨ha, hb, t, hta, htb⟩ := hsym x y h
        have hxy1 : ¬ (x = u ∧ y = v) := by
          rintro ⟨hx', hy'⟩; subst hx'; subst hy'; exact hmem h
        have hxy2 : ¬ (x = v ∧ y = u) := by
          rintro ⟨hx', hy'⟩; subst hx'; subst hy'; exact hmem' h
        have hyx1 : ¬ (y = u ∧ x = v) := by
          rintro ⟨hy', hx'⟩; subst hx'; subst hy'; exact hmem hb
        have hyx2 : ¬ (y = v ∧ x = u) := by
          rintro ⟨hy', hx'⟩; subst hx'; subst hy'; exact hmem' hb
        exact ⟨by rw [hadj3]; exact hmono1 x y ha,
          by rw [hadj3]; exact hmono1 y x hb, t,
          by rw [ht3_other x y hxy1 hxy2]; exact hta,
          by rw [ht3_other y x hyx1 hyx2]; exact htb⟩
      · subst h1; subst h2; exact hsym3
      · subst h1; subst h2; exact hsym3.symm
    · intro x y h
      rw [hadj3]
      exact hmono1 x y h

theorem insertStable_perm {α : Type} (le : α → α → Bool) (x : α) :
    ∀ l : List α, (insertStable le x l).Perm (x :: l) := by
  intro l
  induction l with
  | nil => exact List.Perm.refl _
  | cons y ys ih =>
    unfold insertStable
    by_cases h : le y x
    · rw [if_pos h]
      exact (ih.cons y).trans (List.Perm.swap x y ys)
    · rw [if_neg h]

theorem sortStable_perm {α : Type} (le : α → α → Bool) (l : List α) :
    (sortStable le l).Perm l := by
  suffices h : ∀ (l acc : List α),
      (l.foldl (fun acc x => insertStable le x acc) acc).Perm (acc ++ l) by
    simpa using h l []
  intro l
  induction l with
  | nil => intro acc; simp
  | cons x xs ih =>
    intro acc
    simp only [List.foldl_cons]
    refine (ih (insertStable le x acc)).trans ?_
    refine (((insertStable_perm le x acc).append_right xs).trans ?_)
    exact List.perm_middle.symm

theorem wsKeys_map_fst (powF : ℚ → ℚ → ℚ) :
    ∀ (cands : List (ℕ × ℚ)) (x : ℕ),
      ((wsKeys powF cands x).1).map Prod.fst = cands := by
  intro cands
  induction cands with
  | nil => intro x; rfl
  | cons c rest ih =>
    intro x
    simp only [wsKeys, List.map_cons, ih]

theorem wsKeys_length (powF : ℚ → ℚ → ℚ) (cands : List (ℕ × ℚ)) (x : ℕ) :
    ((wsKeys powF cands x).1).length = cands.length := by
  have := congrArg List.length (wsKeys_map_fst powF cands x)
  simpa using this

/-- `weightedSample` returns `min k |candidates|` entries (`k ≠ 0`). -/
theorem weightedSample_length (powF : ℚ → ℚ → ℚ) (candidates : List (ℕ × ℚ))
    (k x : ℕ) (hk : k ≠ 0) :
    (weightedSample powF candidates k x).1.length = min k candidates.length := by
  unfold weightedSample
  by_cases hc : candidates = []
  · rw [if_pos (Or.inr hc), hc]
    simp
  · rw [if_neg (by tauto)]
    dsimp only
    rw [List.length_map, List.length_take,
      (sortStable_perm _ _).length_eq, wsKeys_length]

/-- Every entry `weightedSample` returns is one of the candidates. -/
theorem weightedSample_mem (powF : ℚ → ℚ → ℚ) (candidates : List (ℕ × ℚ))
    (k x : ℕ) :
    ∀ e ∈ (weightedSample powF candidates k x).1, e ∈ candidates := by
  intro e he
  unfold weightedSample at he
  by_cases hc : k = 0 ∨ candidates = []
  · rw [if_pos hc] at he
    simp at he
  · rw [if_neg hc] at he
    dsimp only at he
    obtain ⟨p, hp, hpe⟩ := List.mem_map.mp he
    have hp' : p ∈ sortStable (fun a b => decide (b.2 ≤ a.2))
        (wsKeys powF candidates x).1 := (List.take_subset _ _) hp
    have hp'' : p ∈ (wsKeys powF candidates x).1 :=
      (sortStable_perm _ _).mem_iff.mp hp'
    have : p.1 ∈ ((wsKeys powF candidates x).1).map Prod.fst :=
      List.mem_map_of_mem _ hp''
    rw [wsKeys_map_fst] at this
    rw [← hpe]
    exact this

/-- `weightedSample` keeps the candidate ids duplicate-free. -/
theorem weightedSample_ids_nodup (powF : ℚ → ℚ → ℚ) (candidates : List (ℕ × ℚ))
    (k x : ℕ) (hnd : (candidates.map Prod.fst).Nodup) :
    ((weightedSample powF candidates k x).1.map Prod.fst).Nodup := by
  unfold weightedSample
  by_cases hc : k = 0 ∨ candidates = []
  · rw [if_pos hc]
    simp
  · rw [if_neg hc]
    dsimp only
    set sorted := sortStable (fun a b => decide (b.2 ≤ a.2))
      (wsKeys powF candidates x).1 with hsorted
    have hperm : sorted.Perm (wsKeys powF candidates x).1 := sortStable_perm _ _
    have hnd2 : ((wsKeys powF candidates x).1.map
        (fun e => e.1.1)).Nodup := by
      have heq : (wsKeys powF candidates x).1.map (fun e => e.1.1) =
          (((wsKeys powF candidates x).1).map Prod.fst).map Prod.fst := by
        rw [List.map_map]
        rfl
      rw [heq, wsKeys_map_fst]
      exact hnd
    have hnd3 : (sorted.map (fun e => e.1.1)).Nodup :=
      ((hperm.map _).nodup_iff).mpr hnd2
    have heq2 : List.map Prod.fst (List.map (fun e => e.1) (List.take k sorted)) =
        List.map (fun e => e.1.1) (List.take k sorted) := by
      rw [List.map_map]
      rfl
    rw [heq2]
    exact hnd3.sublist ((List.take_sublist _ _).map _)

theorem bandGo_skip {picked : List ℕ} {m : ℕ} {c : ℕ × ℚ}
    {rest band : List (ℕ × ℚ)} (h : picked.contains c.1 = true) :
    bandGo picked m (c :: rest) band = bandGo picked m rest band := by
  obtain ⟨c1, c2⟩ := c
  simp only [bandGo]
  rw [if_pos h]

theorem bandGo_stop {picked : List ℕ} {m : ℕ} {c : ℕ × ℚ}
    {rest band : List (ℕ × ℚ)} (h : ¬ picked.contains c.1 = true)
    (h2 : m ≤ (band ++ [(c.1, 1 / (c.2 + 1 / 1000000000))]).length) :
    bandGo picked m (c :: rest) band = band ++ [(c.1, 1 / (c.2 + 1 / 1000000000))] := by
  obtain ⟨c1, c2⟩ := c
  simp only [bandGo]
  rw [if_neg h, if_pos h2]

theorem bandGo_push {picked : List ℕ} {m : ℕ} {c : ℕ × ℚ}
    {rest band : List (ℕ × ℚ)} (h : ¬ picked.contains c.1 = true)
    (h2 : ¬ m ≤ (band ++ [(c.1, 1 / (c.2 + 1 / 1000000000))]).length) :
    bandGo picked m (c :: rest) band =
      bandGo picked m rest (band ++ [(c.1, 1 / (c.2 + 1 / 1000000000))]) := by
  obtain ⟨c1, c2⟩ := c
  simp only [bandGo]
  rw [if_neg h, if_neg h2]

/-- Band entries are unpicked candidate ids. -/
theorem bandGo_mem (picked : List ℕ) (m : ℕ) :
    ∀ (cands band : List (ℕ × ℚ)), ∀ e ∈ bandGo picked m cands band,
      e ∈ band ∨ (e.1 ∈ cands.map Prod.fst ∧ picked.contains e.1 = false) := by
  intro cands
  induction cands with
  | nil => intro band e he; exact Or.inl he
  | cons c rest ih =>
    intro band e he
    by_cases hc : picked.contains c.1 = true
    · rw [bandGo_skip hc] at he
      rcases ih band e he with h | ⟨h1, h2⟩
      · exact Or.inl h
      · exact Or.inr ⟨by simp [h1], h2⟩
    · by_cases h2 : m ≤ (band ++ [(c.1, 1 / (c.2 + 1 / 1000000000))]).length
      · rw [bandGo_stop hc h2] at he
        rcases List.mem_append.mp he with h | h
        · exact Or.inl h
        · rw [List.mem_singleton] at h
          subst h
          exact Or.inr ⟨by simp, by simpa using hc⟩
      · rw [bandGo_push hc h2] at he
        rcases ih _ e he with h | ⟨h1, h3⟩
        · rcases List.mem_append.mp h with h' | h'
          · exact Or.inl h'
          · rw [List.mem_singleton] at h'
            subst h'
            exact Or.inr ⟨by simp, by simpa using hc⟩
        · exact Or.inr ⟨by simp [h1], h3⟩

/-- The band ids form a sublist of the initial band plus candidate ids. -/
theorem bandGo_ids_sublist (picked : List ℕ) (m : ℕ) :
    ∀ (cands band : List (ℕ × ℚ)),
      ((bandGo picked m cands band).map Prod.fst).Sublist
        ((band.map Prod.fst) ++ (cands.map Prod.fst)) := by
  intro cands
  induction cands with
  | nil => intro band; simp [bandGo]
  | cons c rest ih =>
    intro band
    by_cases hc : picked.contains c.1 = true
    · rw [bandGo_skip hc]
      refine (ih band).trans ?_
      simp only [List.map_cons]
      exact (List.Sublist.cons _ (List.Sublist.refl _)).append_left _
    · by_cases h2 : m ≤ (band ++ [(c.1, 1 / (c.2 + 1 / 1000000000))]).length
      · rw [bandGo_stop hc h2]
        simp only [List.map_append, List.map_cons, List.map_nil]
        exact (List.Sublist.cons₂ _ (List.nil_sublist _)).append_left _
      · rw [bandGo_push hc h2]
        refine (ih _).trans ?_
        simp only [List.map_append, List.map_cons, List.map_nil,
          List.append_assoc, List.singleton_append]
        exact List.Sublist.refl _

/-- Exact band size: `min m #unpicked` (starting below `m`). -/
theorem bandGo_length (picked : List ℕ) (m : ℕ) :
    ∀ (cands band : List (ℕ × ℚ)), band.length < m →
      (bandGo picked m cands band).length =
        min m (band.length +
          (cands.filter (fun c => !picked.contains c.1)).length) := by
  intro cands
  induction cands with
  | nil =>
    intro band hb
    simp only [bandGo, List.filter_nil, List.length_nil, Nat.add_zero]
    omega
  | cons c rest ih =>
    intro band hb
    by_cases hc : picked.contains c.1 = true
    · rw [bandGo_skip hc, ih band hb, List.filter_cons]
      have : (!picked.contains c.1) = false := by simpa using hc
      rw [this]
      simp
    · have hfc : (!picked.contains c.1) = true := by simpa using hc
      by_cases h2 : m ≤ (band ++ [(c.1, 1 / (c.2 + 1 / 1000000000))]).length
      · rw [bandGo_stop hc h2, List.filter_cons, if_pos hfc]
        have hm : m = band.length + 1 := by
          simp only [List.length_append, List.length_singleton] at h2
          omega
        rw [List.length_append, List.length_singleton, List.length_cons, hm,
          Nat.min_eq_left (by omega)]
      · rw [bandGo_push hc h2, ih _ (by
          simp only [List.length_append, List.length_singleton,
            List.length_cons, List.length_nil] at h2 ⊢
          omega), List.filter_cons, if_pos hfc]
        simp only [List.length_append, List.length_singleton, List.length_cons,
          List.length_nil]
        congr 1
        omega

theorem length_filter_split {α : Type} (p : α → Bool) :
    ∀ l : List α, (l.filter p).length + (l.filter (fun a => !(p a))).length
      = l.length := by
  intro l
  induction l with
  | nil => rfl
  | cons a t ih =>
    rw [List.filter_cons, List.filter_cons]
    cases hp : p a with
    | true => simp only [hp, Bool.not_true, if_true, if_false]; simp; omega
    | false => simp only [hp, Bool.not_false, if_true, if_false]; simp; omega

theorem nodup_subset_length (l s : List ℕ) (hl : l.Nodup)
    (hsub : ∀ a ∈ l, a ∈ s) : l.length ≤ s.length := by
  classical
  have h1 : l.toFinset.card = l.length := List.toFinset_card_of_nodup hl
  have h2 : l.toFinset ⊆ s.toFinset := fun a ha =>
    List.mem_toFinset.mpr (hsub a (List.mem_toFinset.mp ha))
  have h3 : s.toFinset.card ≤ s.length := s.toFinset_card_le
  calc l.length = l.toFinset.card := h1.symm
    _ ≤ s.toFinset.card := Finset.card_le_card h2
    _ ≤ s.length := h3

/-- At most `|picked|` candidates are filtered away. -/
theorem unpicked_count_ge (cands : List (ℕ × ℚ)) (picked : List ℕ)
    (hnd : (cands.map Prod.fst).Nodup) :
    cands.length - picked.length ≤
      (cands.filter (fun c => !picked.contains c.1)).length := by
  have hsplit := length_filter_split (fun c => picked.contains c.1) cands
  have hsub : ∀ a ∈ (cands.filter (fun c => picked.contains c.1)).map Prod.fst,
      a ∈ picked := by
    intro a ha
    obtain ⟨e, he, hea⟩ := List.mem_map.mp ha
    have := (List.mem_filter.mp he).2
    rw [← hea]
    exact (contains_true_iff _ _).mp this
  have hndf : ((cands.filter (fun c => picked.contains c.1)).map Prod.fst).Nodup :=
    hnd.sublist ((List.filter_sublist _).map _)
  have hle := nodup_subset_length _ picked hndf hsub
  rw [List.length_map] at hle
  omega

/-- The candidate ids of user `i` are exactly `0..n−1` without `i`. -/
theorem candidatesFor_ids_perm (n i : ℕ) :
    ((candidatesFor n i).map Prod.fst).Perm
      ((List.range n).filter (fun j => !(j == i))) := by
  unfold candidatesFor
  refine ((sortStable_perm _ _).map Prod.fst).trans ?_
  rw [List.map_map]
  have h : (Prod.fst ∘ fun j : ℕ => (j, pdist n i j)) = id := rfl
  rw [h, List.map_id]

theorem candidatesFor_mem (n i : ℕ) :
    ∀ e ∈ candidatesFor n i, e.1 < n ∧ e.1 ≠ i := by
  intro e he
  have h1 : e.1 ∈ (candidatesFor n i).map Prod.fst := List.mem_map_of_mem _ he
  have h2 := (candidatesFor_ids_perm n i).mem_iff.mp h1
  have h3 := List.mem_filter.mp h2
  refine ⟨List.mem_range.mp h3.1, ?_⟩
  simpa using h3.2

theorem candidatesFor_ids_nodup (n i : ℕ) :
    ((candidatesFor n i).map Prod.fst).Nodup :=
  ((candidatesFor_ids_perm n i).nodup_iff).mpr
    ((List.nodup_range n).filter _)

theorem filter_ne_length :
    ∀ (l : List ℕ) (i : ℕ), l.Nodup → i ∈ l →
      (l.filter (fun j => !(j == i))).length = l.length - 1 := by
  intro l
  induction l with
  | nil => intro i _ h; simp at h
  | cons a t ih =>
    intro i hnd hmem
    obtain ⟨hna, hndt⟩ := List.nodup_cons.mp hnd
    rw [List.filter_cons]
    by_cases ha : a = i
    · subst ha
      rw [if_neg (by simp)]
      have hall : ∀ b ∈ t, (fun j => !(j == a)) b = true := by
        intro b hb
        have hne : b ≠ a := fun hba => hna (hba ▸ hb)
        simpa using hne
      rw [List.filter_eq_self.mpr hall]
      simp
    · have hcond : (!(a == i)) = true := by simpa using ha
      rw [if_pos hcond]
      have hit : i ∈ t := by
        rcases List.mem_cons.mp hmem with h | h
        · exact absurd h.symm ha
        · exact h
      have hlen : 1 ≤ t.length := List.length_pos.mpr (List.ne_nil_of_mem hit)
      rw [List.length_cons, List.length_cons, ih i hndt hit]
      omega

theorem candidatesFor_length (n i : ℕ) (h : i < n) :
    (candidatesFor n i).length = n - 1 := by
  have h1 := (candidatesFor_ids_perm n i).length_eq
  rw [List.length_map] at h1
  rw [h1, filter_ne_length _ i (List.nodup_range n) (List.mem_range.mpr h),
    List.length_range]

/-- Marking fresh ids in the `picked` set just appends them. -/
theorem foldl_setAdd_eq :
    ∀ (sel : List (ℕ × ℚ)) (picked : List ℕ),
      (∀ e ∈ sel, e.1 ∉ picked) → (sel.map Prod.fst).Nodup →
      sel.foldl (fun pk e => setAdd pk e.1) picked
        = picked ++ sel.map Prod.fst := by
  intro sel
  induction sel with
  | nil => intro picked _ _; simp
  | cons e rest ih =>
    intro picked hnip hnd
    have hnd' : (e.1 :: rest.map Prod.fst).Nodup := by simpa using hnd
    simp only [List.foldl_cons]
    have h1 : setAdd picked e.1 = picked ++ [e.1] := by
      unfold setAdd
      rw [if_neg (fun hcon =>
        hnip e (List.mem_cons_self _ _) ((contains_true_iff _ _).mp hcon))]
    have hnip' : ∀ e' ∈ rest, e'.1 ∉ picked ++ [e.1] := by
      intro e' he' hmem
      rcases List.mem_append.mp hmem with h | h
      · exact hnip e' (List.mem_cons_of_mem _ he') h
      · rw [List.mem_singleton] at h
        have hm : e'.1 ∈ rest.map Prod.fst := List.mem_map_of_mem _ he'
        rw [h] at hm
        exact (List.nodup_cons.mp hnd').1 hm
    rw [h1, ih _ hnip' (List.nodup_cons.mp hnd').2]
    simp

/-- The edge/tier insertion fold of `pickTier`: invariants hold, the new
edges of `uId` are exactly the sampled ids appended in order, and no other
adjacency row moves. -/
theorem tierFold_spec {n : ℕ} (uId : ℕ) (tname : Tier) :
    ∀ (sel : List (ℕ × ℚ)) (g : GB), GInv n g → uId < n →
      (sel.map Prod.fst).Nodup →
      (∀ e ∈ sel, e.1 ∉ adjAt g uId ∧ e.1 < n ∧ e.1 ≠ uId) →
      GInv n (sel.foldl (fun g e => setTier (addAdj g uId e.1) uId e.1 tname) g) ∧
      adjAt (sel.foldl (fun g e => setTier (addAdj g uId e.1) uId e.1 tname) g)
          uId = adjAt g uId ++ sel.map Prod.fst ∧
      (∀ x, x ≠ uId →
        adjAt (sel.foldl (fun g e => setTier (addAdj g uId e.1) uId e.1 tname) g)
          x = adjAt g x) := by
  intro sel
  induction sel with
  | nil => intro g inv hu _ _; exact ⟨inv, by simp, fun _ _ => rfl⟩
  | cons e rest ih =>
    intro g inv hu hnd hsel
    obtain ⟨hnotin, hen, hneu⟩ := hsel e (List.mem_cons_self _ _)
    have hnd' : (e.1 :: rest.map Prod.fst).Nodup := by simpa using hnd
    have hulen : uId < g.adj.length := by rw [inv.adjLen]; exact hu
    have hutlen : uId < g.tier.length := by rw [inv.tierLen]; exact hu
    set g1 := setTier (addAdj g uId e.1) uId e.1 tname with hg1
    have hadj1u : adjAt g1 uId = adjAt g uId ++ [e.1] := by
      rw [hg1, adjAt_setTier, adjAt_addAdj,
        if_pos ⟨rfl, hulen, fun hc => hnotin ((contains_true_iff _ _).mp hc)⟩]
    have hadj1x : ∀ x, x ≠ uId → adjAt g1 x = adjAt g x := by
      intro x hx
      rw [hg1, adjAt_setTier, adjAt_addAdj_ne _ hx]
    have htlen1 : uId < (addAdj g uId e.1).tier.length := by
      rw [tier_length_addAdj]; exact hutlen
    have htier1_self : tierAt g1 uId e.1 = some tname :=
      tierAt_setTier_self _ _ htlen1
    have htier1_other : ∀ x y, ¬ (x = uId ∧ y = e.1) →
        tierAt g1 x y = tierAt g x y := by
      intro x y hxy
      rw [hg1, tierAt_setTier_ne _ hxy, tierAt_addAdj]
    have inv1 : GInv n g1 := by
      refine ⟨?_, ?_, ?_, ?_, ?_, ?_⟩
      · rw [hg1]
        show (setTier (addAdj g uId e.1) uId e.1 tname).adj.length = n
        rw [adj_length_setTier, adj_length_addAdj, inv.adjLen]
      · rw [hg1]
        show (setTier (addAdj g uId e.1) uId e.1 tname).tier.length = n
        rw [tier_length_setTier, tier_length_addAdj, inv.tierLen]
      · intro x hx
        by_cases hxu : x = uId
        · subst hxu
          rw [hadj1u] at hx
          rcases List.mem_append.mp hx with h | h
          · exact inv.noSelf x h
          · rw [List.mem_singleton] at h
            exact hneu h.symm
        · rw [hadj1x x hxu] at hx
          exact inv.noSelf x hx
      · intro x y hy
        by_cases hxu : x = uId
        · subst hxu
          rw [hadj1u] at hy
          rcases List.mem_append.mp hy with h | h
          · exact inv.inRange _ _ h
          · rw [List.mem_singleton] at h
            subst h
            exact ⟨hu, hen⟩
        · rw [hadj1x x hxu] at hy
          exact inv.inRange _ _ hy
      · intro x y
        by_cases hxy : x = uId ∧ y = e.1
        · obtain ⟨hx, hy'⟩ := hxy
          subst hx
          subst hy'
          rw [htier1_self, hadj1u]
          simp
        · rw [htier1_other x y hxy, inv.tierEdge]
          by_cases hxu : x = uId
          · subst hxu
            rw [hadj1u]
            constructor
            · exact fun h => List.mem_append_left _ h
            · intro h
              rcases List.mem_append.mp h with h' | h'
              · exact h'
              · rw [List.mem_singleton] at h'
                exact absurd ⟨rfl, h'⟩ hxy
          · rw [hadj1x x hxu]
      · intro x
        by_cases hxu : x = uId
        · subst hxu
          rw [hadj1u, List.nodup_append]
          refine ⟨inv.nodupAdj _, List.nodup_singleton _, ?_⟩
          intro a ha hb
          rw [List.mem_singleton] at hb
          subst hb
          exact hnotin ha
        · rw [hadj1x x hxu]
          exact inv.nodupAdj x
    have hsel' : ∀ e' ∈ rest, e'.1 ∉ adjAt g1 uId ∧ e'.1 < n ∧ e'.1 ≠ uId := by
      intro e' he'
      obtain ⟨h1, h2, h3⟩ := hsel e' (List.mem_cons_of_mem _ he')
      refine ⟨?_, h2, h3⟩
      rw [hadj1u]
      intro hmem
      rcases List.mem_append.mp hmem with h | h
      · exact h1 h
      · rw [List.mem_singleton] at h
        have hm : e'.1 ∈ rest.map Prod.fst := List.mem_map_of_mem _ he'
        rw [h] at hm
        exact (List.nodup_cons.mp hnd').1 hm
    obtain ⟨inv2, hadj2u, hadj2x⟩ :=
      ih g1 inv1 hu (List.nodup_cons.mp hnd').2 hsel'
    simp only [List.foldl_cons]
    rw [← hg1]
    refine ⟨inv2, ?_, ?_⟩
    · rw [hadj2u, hadj1u, List.map_cons]
      simp
    · exact fun x hx => (hadj2x x hx).trans (hadj1x x hx)

/-- One `pickTier` call: invariants hold, `picked` stays equal to the
adjacency row of `uId`, other rows are untouched, and the row grows to at
least `min (old + kTier) (n−1)` entries. -/
theorem pickTier_spec {n : ℕ} (powF : ℚ → ℚ → ℚ) (uId : ℕ) (kTier : ℕ)
    (tname : Tier) (bm : ℚ) (g : GB) (picked : List ℕ) (x : ℕ)
    (inv : GInv n g) (hu : uId < n) (hpicked : picked = adjAt g uId) :
    GInv n (pickTier powF uId (candidatesFor n uId) kTier tname bm
      (g, picked, x)).1 ∧
    (pickTier powF uId (candidatesFor n uId) kTier tname bm (g, picked, x)).2.1
      = adjAt (pickTier powF uId (candidatesFor n uId) kTier tname bm
        (g, picked, x)).1 uId ∧
    (∀ y, y ≠ uId → adjAt (pickTier powF uId (candidatesFor n uId) kTier tname
      bm (g, picked, x)).1 y = adjAt g y) ∧
    min ((adjAt g uId).length + kTier) (n - 1)
      ≤ (adjAt (pickTier powF uId (candidatesFor n uId) kTier tname bm
        (g, picked, x)).1 uId).length ∧
    (adjAt g uId).length ≤ (adjAt (pickTier powF uId (candidatesFor n uId)
      kTier tname bm (g, picked, x)).1 uId).length := by
  by_cases hk : kTier = 0
  · unfold pickTier
    rw [if_pos hk]
    refine ⟨inv, hpicked, fun _ _ => rfl, ?_, le_refl _⟩
    subst hk
    rw [Nat.add_zero]
    exact min_le_left _ _
  · unfold pickTier
    rw [if_neg hk]
    dsimp only
    set m := max kTier (⌊bm * (kTier : ℚ)⌋).toNat with hmdef
    set band := bandGo picked m (candidatesFor n uId) [] with hbanddef
    set sel := (weightedSample powF band kTier x).1 with hseldef
    have hkm : kTier ≤ m := le_max_left _ _
    have hm1 : 0 < m := lt_of_lt_of_le (Nat.pos_of_ne_zero hk) hkm
    have hbprops : ∀ e ∈ band, e.1 ∈ (candidatesFor n uId).map Prod.fst ∧
        picked.contains e.1 = false := by
      intro e he
      rcases bandGo_mem picked m (candidatesFor n uId) [] e he with h | h
      · simp at h
      · exact h
    have hbnd : (band.map Prod.fst).Nodup := by
      refine (candidatesFor_ids_nodup n uId).sublist ?_
      have := bandGo_ids_sublist picked m (candidatesFor n uId) []
      simpa using this
    have hblen : band.length = min m
        (((candidatesFor n uId).filter
          (fun c => !picked.contains c.1)).length) := by
      have := bandGo_length picked m (candidatesFor n uId) []
        (by simpa using hm1)
      simpa using this
    have hslen : sel.length = min kTier band.length := by
      rw [hseldef, weightedSample_length _ _ _ _ hk]
    have hsmem : ∀ e ∈ sel, e ∈ band := weightedSample_mem _ _ _ _
    have hsnd : (sel.map Prod.fst).Nodup :=
      weightedSample_ids_nodup _ _ _ _ hbnd
    have hselprops : ∀ e ∈ sel, e.1 ∉ adjAt g uId ∧ e.1 < n ∧ e.1 ≠ uId := by
      intro e he
      obtain ⟨hid, hfalse⟩ := hbprops e (hsmem e he)
      obtain ⟨c, hc, hce⟩ := List.mem_map.mp hid
      obtain ⟨hcn, hci⟩ := candidatesFor_mem n uId c hc
      have hnotin : e.1 ∉ picked := by
        intro hmem
        have := (contains_true_iff _ _).mpr hmem
        simp [this] at hfalse
        exact hfalse hmem
      exact ⟨hpicked ▸ hnotin, hce ▸ hcn, hce ▸ hci⟩
    have hnotpicked : ∀ e ∈ sel, e.1 ∉ picked := by
      intro e he
      rw [hpicked]
      exact (hselprops e he).1
    obtain ⟨inv', hadjU, hadjX⟩ := tierFold_spec uId tname sel g inv hu hsnd
      hselprops
    have hpicked' : sel.foldl (fun pk e => setAdd pk e.1) picked
        = adjAt (sel.foldl
          (fun g e => setTier (addAdj g uId e.1) uId e.1 tname) g) uId := by
      rw [foldl_setAdd_eq sel picked hnotpicked hsnd, hadjU, hpicked]
    refine ⟨inv', hpicked', hadjX, ?_, ?_⟩
    · rw [hadjU, List.length_append, List.length_map, hslen, hblen]
      have hcnt := unpicked_count_ge (candidatesFor n uId) picked
        (candidatesFor_ids_nodup n uId)
      rw [candidatesFor_length n uId hu] at hcnt
      have hplen : picked.length = (adjAt g uId).length := by rw [hpicked]
      omega
    · rw [hadjU, List.length_append]
      exact Nat.le_add_right _ _

/-- One user's three tier passes: invariants, other rows untouched, and the
user's row reaches at least `min kAcq (n−1)` entries. -/
theorem phase1User_spec {n : ℕ} (powF : ℚ → ℚ → ℚ) (o : GraphOptions)
    (g : GB) (x i : ℕ) (inv : GInv n g) (hi : i < n)
    (hadj0 : adjAt g i = []) :
    GInv n (phase1User powF n o (g, x) i).1 ∧
    (∀ y, y ≠ i → adjAt (phase1User powF n o (g, x) i).1 y = adjAt g y) ∧
    min (kAcqOf n o) (n - 1)
      ≤ (adjAt (phase1User powF n o (g, x) i).1 i).length := by
  have hk2 : kIntOf n o + 2 ≤ kFriOf n o := le_max_left _ _
  have hk3 : kFriOf n o + 3 ≤ kAcqOf n o := le_max_left _ _
  unfold phase1User
  dsimp only
  set s1 := pickTier powF i (candidatesFor n i) (kIntOf n o) Tier.intimate
    o.bandMultiplier (g, [], x) with hs1
  set s2 := pickTier powF i (candidatesFor n i) (kFriOf n o - kIntOf n o)
    Tier.friend o.bandMultiplier s1 with hs2
  set s3 := pickTier powF i (candidatesFor n i) (kAcqOf n o - kFriOf n o)
    Tier.acquaintance o.bandMultiplier s2 with hs3
  obtain ⟨inv1, hp1, hx1, hb1, hm1⟩ := pickTier_spec powF i (kIntOf n o)
    Tier.intimate o.bandMultiplier g [] x inv hi hadj0.symm
  rw [← hs1] at inv1 hp1 hx1 hb1 hm1
  have heta1 : (s1.1, s1.2.1, s1.2.2) = s1 := rfl
  obtain ⟨inv2, hp2, hx2, hb2, hm2⟩ := pickTier_spec powF i
    (kFriOf n o - kIntOf n o) Tier.friend o.bandMultiplier s1.1 s1.2.1 s1.2.2
    inv1 hi hp1
  rw [heta1] at inv2 hp2 hx2 hb2 hm2
  rw [← hs2] at inv2 hp2 hx2 hb2 hm2
  have heta2 : (s2.1, s2.2.1, s2.2.2) = s2 := rfl
  obtain ⟨inv3, hp3, hx3, hb3, hm3⟩ := pickTier_spec powF i
    (kAcqOf n o - kFriOf n o) Tier.acquaintance o.bandMultiplier s2.1 s2.2.1
    s2.2.2 inv2 hi hp2
  rw [heta2] at inv3 hp3 hx3 hb3 hm3
  rw [← hs3] at inv3 hp3 hx3 hb3 hm3
  refine ⟨inv3, ?_, ?_⟩
  · intro y hy
    rw [hx3 y hy, hx2 y hy, hx1 y hy]
  · have h0 : (adjAt g i).length = 0 := by rw [hadj0]; rfl
    omega

/-- The phase-1 fold over a duplicate-free user list. -/
theorem phase1Fold_spec {n : ℕ} (powF : ℚ → ℚ → ℚ) (o : GraphOptions) :
    ∀ (us : List ℕ) (g : GB) (x : ℕ), GInv n g →
      (∀ j ∈ us, j < n ∧ adjAt g j = []) → us.Nodup →
      GInv n (us.foldl (phase1User powF n o) (g, x)).1 ∧
      (∀ y, y ∉ us → adjAt (us.foldl (phase1User powF n o) (g, x)).1 y
        = adjAt g y) ∧
      (∀ j ∈ us, min (kAcqOf n o) (n - 1)
        ≤ (adjAt (us.foldl (phase1User powF n o) (g, x)).1 j).length) := by
  intro us
  induction us with
  | nil => intro g x inv _ _; exact ⟨inv, fun _ _ => rfl, by simp⟩
  | cons i us ih =>
    intro g x inv hus hnd
    obtain ⟨hin, hadj0⟩ := hus i (List.mem_cons_self _ _)
    obtain ⟨hni, hndus⟩ := List.nodup_cons.mp hnd
    obtain ⟨inv1, hx1, hb1⟩ := phase1User_spec powF o g x i inv hin hadj0
    simp only [List.foldl_cons]
    have heta : ((phase1User powF n o (g, x) i).1,
        (phase1User powF n o (g, x) i).2) = phase1User powF n o (g, x) i := rfl
    have hus' : ∀ j ∈ us, j < n ∧
        adjAt (phase1User powF n o (g, x) i).1 j = [] := by
      intro j hj
      obtain ⟨hjn, hj0⟩ := hus j (List.mem_cons_of_mem _ hj)
      have hji : j ≠ i := fun h => hni (h ▸ hj)
      exact ⟨hjn, (hx1 j hji).trans hj0⟩
    obtain ⟨inv2, hx2, hb2⟩ := ih (phase1User powF n o (g, x) i).1
      (phase1User powF n o (g, x) i).2 inv1 hus' hndus
    rw [heta] at inv2 hx2 hb2
    refine ⟨inv2, ?_, ?_⟩
    · intro y hy
      have hyus : y ∉ us := fun h => hy (List.mem_cons_of_mem _ h)
      have hyi : y ≠ i := fun h => hy (h ▸ List.mem_cons_self _ _)
      rw [hx2 y hyus, hx1 y hyi]
    · intro j hj
      rcases List.mem_cons.mp hj with h | h
      · subst h
        rw [hx2 j hni]
        exact hb1
      · exact hb2 j h

theorem adjAt_init (n u : ℕ) : adjAt (GB.init n) u = [] := by
  unfold adjAt GB.init
  rw [List.getD_eq_getElem?_getD, List.getElem?_replicate]
  split <;> rfl

theorem tierAt_init (n u v : ℕ) : tierAt (GB.init n) u v = none := by
  unfold tierAt GB.init
  rw [List.getD_eq_getElem?_getD, List.getElem?_replicate]
  split <;> rfl

theorem ginv_init (n : ℕ) : GInv n (GB.init n) := by
  refine ⟨?_, ?_, ?_, ?_, ?_, ?_⟩
  · exact List.length_replicate _ _
  · exact List.length_replicate _ _
  · intro u h
    rw [adjAt_init] at h
    simp at h
  · intro u v h
    rw [adjAt_init] at h
    simp at h
  · intro u v
    rw [adjAt_init, tierAt_init]
    simp
  · intro u
    rw [adjAt_init]
    exact List.nodup_nil

/-- After phase 1 the invariants hold and every user already has at least
`min kAcq (n−1)` neighbors. -/
theorem phase1_spec {n : ℕ} (powF : ℚ → ℚ → ℚ) (o : GraphOptions) (x : ℕ) :
    GInv n (phase1 powF n o x).1 ∧
    (∀ j < n, min (kAcqOf n o) (n - 1)
      ≤ (adjAt (phase1 powF n o x).1 j).length) := by
  unfold phase1
  obtain ⟨inv, _, hb⟩ := phase1Fold_spec powF o (List.range n) (GB.init n) x
    (ginv_init n) (fun j hj => ⟨List.mem_range.mp hj, adjAt_init n j⟩)
    (List.nodup_range n)
  exact ⟨inv, fun j hj => hb j (List.mem_range.mpr hj)⟩

/-- The bridge `while` loop keeps the invariants and full symmetry. -/
theorem bridgeLoop_spec {n : ℕ} (bs uId : ℕ) :
    ∀ (vs : List ℕ) (toAdd : ℕ) (st : GB) (x : ℕ), GInv n st → SymAll st →
      uId < n → (∀ v ∈ vs, v < n ∧ v ≠ uId) →
      GInv n (bridgeLoop bs uId vs toAdd st x).1 ∧
      SymAll (bridgeLoop bs uId vs toAdd st x).1 ∧
      (∀ a b, b ∈ adjAt st a →
        b ∈ adjAt (bridgeLoop bs uId vs toAdd st x).1 a) := by
  intro vs
  induction vs with
  | nil => intro toAdd st x inv hsym _ _; exact ⟨inv, hsym, fun _ _ h => h⟩
  | cons v rest ih =>
    intro toAdd st x inv hsym hu hvs
    obtain ⟨hvn, hvne⟩ := hvs v (List.mem_cons_self _ _)
    simp only [bridgeLoop]
    by_cases h1 : bs ≤ toAdd
    · rw [if_pos h1]
      exact ⟨inv, hsym, fun _ _ h => h⟩
    · rw [if_neg h1]
      by_cases h2 : (rngStep x).2 <
          ((bs - toAdd : ℕ) : ℚ) / (((v :: rest).length : ℕ) : ℚ)
      · rw [if_pos h2]
        obtain ⟨inv1, hsym1, hmono1⟩ :=
          bridgeAdd_spec uId v inv hsym hu hvn hvne.symm
        obtain ⟨inv2, hsym2, hmono2⟩ := ih (toAdd + 1) (bridgeAdd st uId v)
          (rngStep x).1 inv1 hsym1 hu
          (fun w hw => hvs w (List.mem_cons_of_mem _ hw))
        exact ⟨inv2, hsym2, fun a b h => hmono2 a b (hmono1 a b h)⟩
      · rw [if_neg h2]
        exact ih toAdd st (rngStep x).1 inv hsym hu
          (fun w hw => hvs w (List.mem_cons_of_mem _ hw))

theorem bridgeUser_spec {n : ℕ} (o : GraphOptions) (st : GB × ℕ) (uId : ℕ)
    (inv : GInv n st.1) (hsym : SymAll st.1) (hu : uId < n) :
    GInv n (bridgeUser n o st uId).1 ∧ SymAll (bridgeUser n o st uId).1 ∧
    (∀ a b, b ∈ adjAt st.1 a → b ∈ adjAt (bridgeUser n o st uId).1 a) := by
  unfold bridgeUser
  dsimp only
  by_cases h : (rngStep st.2).2 < o.pBridge
  · rw [if_pos h]
    refine bridgeLoop_spec o.bridgeSample uId _ 0 st.1 (rngStep st.2).1 inv
      hsym hu ?_
    intro v hv
    have hf := List.mem_filter.mp hv
    refine ⟨List.mem_range.mp hf.1, ?_⟩
    have h2 := hf.2
    simp only [Bool.and_eq_true] at h2
    simpa using h2.1
  · rw [if_neg h]
    exact ⟨inv, hsym, fun _ _ h => h⟩

theorem bridgesFold_spec {n : ℕ} (o : GraphOptions) :
    ∀ (us : List ℕ) (st : GB × ℕ), GInv n st.1 → SymAll st.1 →
      (∀ u ∈ us, u < n) →
      GInv n (us.foldl (bridgeUser n o) st).1 ∧
      SymAll (us.foldl (bridgeUser n o) st).1 ∧
      (∀ a b, b ∈ adjAt st.1 a →
        b ∈ adjAt (us.foldl (bridgeUser n o) st).1 a) := by
  intro us
  induction us with
  | nil => intro st inv hsym _; exact ⟨inv, hsym, fun _ _ h => h⟩
  | cons u rest ih =>
    intro st inv hsym hus
    obtain ⟨inv1, hsym1, hmono1⟩ := bridgeUser_spec o st u inv hsym
      (hus u (List.mem_cons_self _ _))
    obtain ⟨inv2, hsym2, hmono2⟩ := ih (bridgeUser n o st u) inv1 hsym1
      (fun w hw => hus w (List.mem_cons_of_mem _ hw))
    simp only [List.foldl_cons]
    exact ⟨inv2, hsym2, fun a b h => hmono2 a b (hmono1 a b h)⟩

/-- The whole bridge phase keeps the invariants, full symmetry, and never
removes an edge. -/
theorem bridges_spec {n : ℕ} (o : GraphOptions) (st : GB × ℕ)
    (inv : GInv n st.1) (hsym : SymAll st.1) :
    GInv n (bridges n o st).1 ∧ SymAll (bridges n o st).1 ∧
    (∀ a b, b ∈ adjAt st.1 a → b ∈ adjAt (bridges n o st).1 a) := by
  unfold bridges
  by_cases h : 0 < o.pBridge ∧ 0 < o.bridgeSample
  · rw [if_pos h]
    exact bridgesFold_spec o (List.range n) st inv hsym
      (fun u hu => List.mem_range.mp hu)
  · rw [if_neg h]
    exact ⟨inv, hsym, fun _ _ h => h⟩

/-- Witness for `c3_no_path_is_skip`: the reply part at a disconnected pair
(where `selectPath` does return `null`), the new-send part at the edge
graph. -/
theorem c3_witness :
    ((processReplyEntry [] (fun _ _ => none) 1 5 0 0 ⟨0, 1, 0⟩
        ⟨[], emptyTracker, [0], [], [], [], 0⟩).log =
      (⟨[], emptyTracker, [0], [], [], [], 0⟩ : ReplyRunState).log ∧
     (processReplyEntry [] (fun _ _ => none) 1 5 0 0 ⟨0, 1, 0⟩
        ⟨[], emptyTracker, [0], [], [], [], 0⟩).notes =
      (⟨[], emptyTracker, [0], [], [], [], 0⟩ : ReplyRunState).notes) ∧
    (newSendStep [(0, [1]), (1, [0])] (fun _ _ => none) stdTierWeights 1 5 0 0
      (1/2) emptyTracker [0]).isSome := by
  constructor
  · refine c3_no_path_is_skip.1 [] (fun _ _ => none) 1 5 0 0 ⟨0, 1, 0⟩
      ⟨[], emptyTracker, [0], [], [], [], 0⟩ ?_
    norm_num [selectPath, shortestPath, spLoop, spNbrs, lookupG, graphFuel,
      rngNext, shouldContinue, ConversationThread.new, maxConversationLength,
      conversationDecay, List.lookup, pairKey]
  · exact c3_no_path_is_skip.2 [(0, [1]), (1, [0])] (fun _ _ => none)
      stdTierWeights 1 5 0 0 (1/2) emptyTracker [0]

/-- **C8.** For every graph returned by `getTieredMeshGraph` and every pair
of users `(u,v)`: `v ∈ adj(u)` iff `u ∈ adj(v)`, and for every edge `(u,v)`
both `tier(u,v)` and `tier(v,u)` exist and are equal. -/
theorem c8_graph_symmetric (powF : ℚ → ℚ → ℚ) (n : ℕ) (o : GraphOptions) :
    ∀ u v, (v ∈ adjAt (getTieredMeshGraph powF n o) u ↔
        u ∈ adjAt (getTieredMeshGraph powF n o) v) ∧
      (v ∈ adjAt (getTieredMeshGraph powF n o) u →
        ∃ tr, tierAt (getTieredMeshGraph powF n o) u v = some tr ∧
          tierAt (getTieredMeshGraph powF n o) v u = some tr) := by
  have hp := phase1_spec powF o (makeRNGInit o.seed) (n := n)
  obtain ⟨invs, hsyms, _⟩ :=
    symmetrize_spec (phase1 powF n o (makeRNGInit o.seed)).1 hp.1
  obtain ⟨invb, hsymb, _⟩ := bridges_spec o
    (symmetrize n (phase1 powF n o (makeRNGInit o.seed)).1,
      (phase1 powF n o (makeRNGInit o.seed)).2) invs hsyms
  unfold getTieredMeshGraph
  dsimp only
  intro u v
  refine ⟨⟨fun h => (hsymb u v h).2.1, fun h => (hsymb v u h).2.1⟩, ?_⟩
  intro h
  exact (hsymb u v h).2.2

/-- Witness for `c8_graph_symmetric`: on the 2-user graph with zeroed tier
probabilities the edge `0–1` is present, and the theorem yields the reverse
edge and the shared tier. -/
theorem c8_witness :
    1 ∈ adjAt (getTieredMeshGraph (fun a _ => a) 2 ⟨0, 0, 0, 0, 1, 2, 0⟩) 0 ∧
    0 ∈ adjAt (getTieredMeshGraph (fun a _ => a) 2 ⟨0, 0, 0, 0, 1, 2, 0⟩) 1 ∧
    ∃ tr, tierAt (getTieredMeshGraph (fun a _ => a) 2 ⟨0, 0, 0, 0, 1, 2, 0⟩)
        0 1 = some tr ∧
      tierAt (getTieredMeshGraph (fun a _ => a) 2 ⟨0, 0, 0, 0, 1, 2, 0⟩) 1 0
        = some tr := by
  have hmem : 1 ∈ adjAt
      (getTieredMeshGraph (fun a _ => a) 2 ⟨0, 0, 0, 0, 1, 2, 0⟩) 0 := by
    norm_num [getTieredMeshGraph, phase1, phase1User, pickTier, candidatesFor,
      pdist, sortStable, insertStable, bandGo, weightedSample, wsKeys, rngStep,
      lehmerNext, makeRNGInit, kIntOf, kFriOf, kAcqOf, setAdd, addAdj, setTier,
      adjAt, tierAt, assocSet, GB.init, symmetrize, symUser, symStep, stronger,
      tierOrder, bridges, List.lookup, List.range_succ]
  exact ⟨hmem, ((c8_graph_symmetric (fun a _ => a) 2 ⟨0, 0, 0, 0, 1, 2, 0⟩
      0 1).1).mp hmem,
    (c8_graph_symmetric (fun a _ => a) 2 ⟨0, 0, 0, 0, 1, 2, 0⟩ 0 1).2 hmem⟩

/-- **C10.** For every input of `n ≥ 2` users, every node of the graph
returned by `getTieredMeshGraph` has at least `min kAcq (n−1) ≥ 1`
neighbors; in particular no node is isolated. -/
theorem c10_min_degree (powF : ℚ → ℚ → ℚ) (n : ℕ) (o : GraphOptions)
    (hn : 2 ≤ n) :
    ∀ u < n, 1 ≤ min (kAcqOf n o) (n - 1) ∧
      min (kAcqOf n o) (n - 1)
        ≤ (adjAt (getTieredMeshGraph powF n o) u).length := by
  intro u hu
  have hp := phase1_spec powF o (makeRNGInit o.seed) (n := n)
  obtain ⟨invs, hsyms, hmonos⟩ :=
    symmetrize_spec (phase1 powF n o (makeRNGInit o.seed)).1 hp.1
  obtain ⟨invb, hsymb, hmonob⟩ := bridges_spec o
    (symmetrize n (phase1 powF n o (makeRNGInit o.seed)).1,
      (phase1 powF n o (makeRNGInit o.seed)).2) invs hsyms
  constructor
  · have hk3 : kFriOf n o + 3 ≤ kAcqOf n o := le_max_left _ _
    omega
  · have h1 := hp.2 u hu
    have hlen1 : (adjAt (phase1 powF n o (makeRNGInit o.seed)).1 u).length ≤
        (adjAt (symmetrize n (phase1 powF n o (makeRNGInit o.seed)).1)
          u).length :=
      nodup_subset_length _ _ (hp.1.nodupAdj u) (fun b hb => hmonos u b hb)
    have hlen2 : (adjAt (symmetrize n
          (phase1 powF n o (makeRNGInit o.seed)).1) u).length ≤
        (adjAt (bridges n o
          (symmetrize n (phase1 powF n o (makeRNGInit o.seed)).1,
            (phase1 powF n o (makeRNGInit o.seed)).2)).1 u).length :=
      nodup_subset_length _ _ (invs.nodupAdj u) (fun b hb => hmonob u b hb)
    unfold getTieredMeshGraph
    dsimp only
    omega

/-- Witness for `c10_min_degree` at the concrete 2-user input. -/
theorem c10_witness :
    1 ≤ min (kAcqOf 2 ⟨0, 0, 0, 0, 1, 2, 0⟩) (2 - 1) ∧
    min (kAcqOf 2 ⟨0, 0, 0, 0, 1, 2, 0⟩) (2 - 1) ≤
      (adjAt (getTieredMeshGraph (fun a _ => a) 2 ⟨0, 0, 0, 0, 1, 2, 0⟩)
        0).length :=
  c10_min_degree (fun a _ => a) 2 ⟨0, 0, 0, 0, 1, 2, 0⟩ (by norm_num) 0
    (by norm_num)

end MeshSim
